import Mathlib

/-!
Verification of the whisperX-medical-transcribe orchestration core.

The definitions below are a shallow embedding of the Python sources
(`server.py` / `handler.py`, "new stack" variants): timestamps are modelled
as rationals, the diarization timeline as a list of turns, and each
orchestration routine (chunk planner, word-speaker attributor, chunk output
normalization, engine fallback, segment assembler, hallucination filter,
speaker rename) as an executable Lean function translated line by line from
the corresponding Python function.
-/

set_option maxHeartbeats 2000000

/-- A diarization turn `{start, end, speaker}` (source: `run_diarization`
builds the timeline as a list of such records; `end` is named `stop` because
`end` is a Lean keyword). -/
structure Turn where
  start : ℚ
  stop : ℚ
  speaker : String
deriving DecidableEq, Repr

/-- A planning chunk `{start, end, turns}` as built by `run_transcribe_task`
(`natural_chunks` entries). -/
structure Chunk where
  start : ℚ
  stop : ℚ
  turns : List Turn
deriving DecidableEq, Repr

/-- A speaker-attributed word record, mirroring the dicts appended to
`all_speaker_words`. -/
structure SpeakerWord where
  word : String
  start : ℚ
  stop : ℚ
  speaker_raw : String
deriving DecidableEq, Repr

/-- A transcript segment `{start, timestamp, text, speaker}`. -/
structure Segment where
  start : ℚ
  timestamp : String
  text : String
  speaker : String
deriving DecidableEq, Repr

/- ## Word-speaker attributor (`get_speaker_for_word`) -/

/-- Overlap-scanning loop of `get_speaker_for_word`: walks the timeline
carrying `(best_speaker, best_overlap)`, updating on strictly larger overlap
(`overlap_end > overlap_start` and `overlap > best_overlap`). -/
def ovLoop (ws we : ℚ) : List Turn → Option String → ℚ → Option String × ℚ
  | [], best, bo => (best, bo)
  | t :: rest, best, bo =>
      if min we t.stop > max ws t.start then
        if min we t.stop - max ws t.start > bo then
          ovLoop ws we rest (some t.speaker) (min we t.stop - max ws t.start)
        else ovLoop ws we rest best bo
      else ovLoop ws we rest best bo

/-- Distance from a turn's nearest edge to a point:
`min(abs(s["start"] - mid), abs(s["end"] - mid))`. -/
def edgeDist (mid : ℚ) (t : Turn) : ℚ := min |t.start - mid| |t.stop - mid|

/-- `min(timeline, key=...)`: Python's `min` keeps the first element attaining
the minimum key, so the accumulator is replaced only on strict decrease. -/
def nearestTurn (mid : ℚ) : Turn → List Turn → Turn
  | cur, [] => cur
  | cur, t :: rest =>
      if edgeDist mid t < edgeDist mid cur then nearestTurn mid t rest
      else nearestTurn mid cur rest

/-- `get_speaker_for_word(timeline, word_start, word_end)`. An empty timeline
yields `"Unknown"`; otherwise the best-overlap speaker is returned when it is
truthy (Python `if best_speaker:` is false for both `None` and `""`), else the
speaker of the nearest-edge turn to the word midpoint. -/
def get_speaker_for_word (timeline : List Turn) (ws we : ℚ) : String :=
  match timeline with
  | [] => "Unknown"
  | t0 :: rest =>
      match ovLoop ws we (t0 :: rest) none 0 with
      | (some s, _) =>
          if s ≠ "" then s else (nearestTurn ((ws + we) / 2) t0 rest).speaker
      | (none, _) => (nearestTurn ((ws + we) / 2) t0 rest).speaker

/- ## Chunk planner (`run_transcribe_task` / `do_transcribe`) -/

/-- One pass of the chunk-building loop: accumulate turns into the current
chunk, closing it when `entry["end"] - chunk_start_time >= 30` or at the last
turn; on a non-final close the next chunk starts at `timeline[i+1]["start"]`. -/
def planAux (chunkStart : ℚ) (cur : List Turn) : List Turn → List Chunk
  | [] => []
  | [e] => [⟨chunkStart, e.stop, cur ++ [e]⟩]
  | e :: f :: rest =>
      if e.stop - chunkStart ≥ 30 then
        ⟨chunkStart, e.stop, cur ++ [e]⟩ :: planAux f.start [] (f :: rest)
      else
        planAux chunkStart (cur ++ [e]) (f :: rest)

/-- `natural_chunks` built from a diarization timeline (empty timeline yields
no chunks; the fixed-window fallback is modelled separately). -/
def natural_chunks : List Turn → List Chunk
  | [] => []
  | t :: rest => planAux t.start [] (t :: rest)

/-- Fixed-window fallback when no diarization chunks exist:
`[{start: i*30, end: min((i+1)*30, duration)} for i in range(ceil(duration/30))]`. -/
def fallbackChunks (duration : ℚ) : List Chunk :=
  (List.range (Rat.ceil (duration / 30)).toNat).map
    (fun i => ⟨(i : ℚ) * 30, min (((i : ℚ) + 1) * 30) duration, []⟩)

/-- Chunk planning entry point: diarization-aligned chunks when the timeline
produces any, otherwise fixed 30-second windows over `[0, duration]`. -/
def planChunks (timeline : List Turn) (duration : ℚ) : List Chunk :=
  let nc := natural_chunks timeline
  if nc = [] then fallbackChunks duration else nc

/- ## Character-level utilities shared by the text transforms -/

/-- The whitespace class used by Python's `\s` and `str.strip()` on the
characters this codebase manipulates. -/
def isSp (c : Char) : Bool :=
  c = ' ' || c = '\t' || c = '\n' || c = '\r' || c = '\x0b' || c = '\x0c'

/-- Case folding covering ASCII letters and the Cyrillic block used by the
hallucination patterns (Python `re.IGNORECASE` / `str.lower`). -/
def foldC (c : Char) : Char :=
  if 0x410 ≤ c.toNat ∧ c.toNat ≤ 0x42F then Char.ofNat (c.toNat + 0x20)
  else if 0x41 ≤ c.toNat ∧ c.toNat ≤ 0x5A then Char.ofNat (c.toNat + 0x20)
  else if c.toNat = 0x401 then Char.ofNat 0x451
  else c

/-- Word-character class backing `\b` (`\w`): ASCII alphanumerics, underscore
and the Cyrillic block. -/
def isWordChar (c : Char) : Bool :=
  c.isAlphanum || c = '_' || (0x400 ≤ c.toNat && c.toNat ≤ 0x4FF)

/-- `[А-ЯA-Z]` and `[а-яa-z]` under `re.IGNORECASE` denote the same set:
both-case Cyrillic А–я plus both-case ASCII letters. -/
def isPatLetter (c : Char) : Bool :=
  (0x410 ≤ c.toNat && c.toNat ≤ 0x44F) ||
  (0x41 ≤ c.toNat && c.toNat ≤ 0x5A) ||
  (0x61 ≤ c.toNat && c.toNat ≤ 0x7A)

/-- Drop leading whitespace (one side of Python `str.strip()`). -/
def dropSp : List Char → List Char
  | [] => []
  | c :: cs => if isSp c then dropSp cs else c :: cs

/-- Python `str.strip()` on a character list: whitespace removed from both
ends. -/
def pstripL (l : List Char) : List Char :=
  List.reverse (dropSp (List.reverse (dropSp l)))

/-- Python `str.strip()` on a string. -/
def pstrip (s : String) : String := String.mk (pstripL s.data)

/-- `re.sub(r'\s+', ' ', s)`: each maximal whitespace run becomes a single
space. Fuel-based so that the kernel can evaluate it; the fuel equals the
input length, which every step decreases by at least one. -/
def collapseWsF : Nat → List Char → List Char
  | 0, l => l
  | _ + 1, [] => []
  | f + 1, c :: cs =>
      if isSp c then ' ' :: collapseWsF f (dropSp cs) else c :: collapseWsF f cs

/-- `re.sub(r'\s+', ' ', s)` at adequate fuel. -/
def collapseWs (l : List Char) : List Char := collapseWsF l.length l

/- ## A small backtracking regex core

Python's `re` matches leftmost-first with backtracking; greedy pieces try the
longer alternative first. The eight hallucination patterns only need
single-character classes, sequencing, prioritized alternation, greedy
class-stars and `\b`, so the engine below implements exactly those, in
continuation-passing style. The continuation receives the character
immediately before the remaining input (needed for `\b`). -/
inductive Rx where
  | eps : Rx
  | cls : (Char → Bool) → Rx
  | seq : Rx → Rx → Rx
  | alt : Rx → Rx → Rx
  | many : (Char → Bool) → Rx
  | wordB : Rx

/-- `\b`: the two sides differ in word-character-ness. -/
def wbHolds (prev : Option Char) (s : List Char) : Bool :=
  let a := match prev with | some c => isWordChar c | none => false
  let b := match s with | c :: _ => isWordChar c | [] => false
  a != b

/-- Greedy class star: prefer consuming another matching character, fall back
to stopping here. -/
def manyK (p : Char → Bool)
    (k : Option Char → List Char → Option (Option Char × List Char)) :
    Option Char → List Char → Option (Option Char × List Char)
  | prev, [] => k prev []
  | prev, c :: cs =>
      if p c then (manyK p k (some c) cs).orElse (fun _ => k prev (c :: cs))
      else k prev (c :: cs)

/-- Backtracking matcher in CPS; alternation tries the left branch first,
mirroring Python's preference order. -/
def mrun : Rx → Option Char → List Char →
    (Option Char → List Char → Option (Option Char × List Char)) →
    Option (Option Char × List Char)
  | .eps, prev, s, k => k prev s
  | .cls p, _prev, s, k =>
      match s with
      | [] => none
      | c :: cs => if p c then k (some c) cs else none
  | .seq a b, prev, s, k => mrun a prev s (fun p2 s2 => mrun b p2 s2 k)
  | .alt a b, prev, s, k => (mrun a prev s k).orElse (fun _ => mrun b prev s k)
  | .many p, prev, s, k => manyK p k prev s
  | .wordB, prev, s, k => if wbHolds prev s then k prev s else none

/-- Try to match `rx` at the current position; on success return the last
matched character (the new left context) and the remaining input. -/
def topMatch (rx : Rx) (prev : Option Char) (s : List Char) :
    Option (Option Char × List Char) :=
  mrun rx prev s (fun p r => some (p, r))

/-- `re.sub(pattern, '', s)` driver: scan left to right; at each position try
the matcher; delete a (necessarily non-empty, for these patterns) match and
continue after it, otherwise emit the character and advance. Fuel equals the
input length, which suffices because every step consumes at least one
character. -/
def subAllF (m : Option Char → List Char → Option (Option Char × List Char)) :
    Nat → Option Char → List Char → List Char
  | 0, _, l => l
  | _ + 1, _, [] => []
  | fuel + 1, prev, c :: cs =>
      match m prev (c :: cs) with
      | some (p2, rest) =>
          if rest.length < (c :: cs).length then subAllF m fuel p2 rest
          else c :: subAllF m fuel (some c) cs
      | none => c :: subAllF m fuel (some c) cs

/-- Apply one deletion pattern across a whole character list. -/
def runSub (rx : Rx) (l : List Char) : List Char :=
  subAllF (topMatch rx) l.length none l

/-- Is there a match of `m` anywhere at or after the current position? -/
def hasMatch (m : Option Char → List Char → Option (Option Char × List Char)) :
    Option Char → List Char → Bool
  | _, [] => false
  | prev, c :: cs => (m prev (c :: cs)).isSome || hasMatch m (some c) cs

/- ## The eight hallucination patterns (`clean_hallucinations`) -/

/-- Case-insensitive literal. -/
def litCI (s : String) : Rx :=
  s.data.foldr (fun c r => Rx.seq (Rx.cls (fun d => foldC d == foldC c)) r) Rx.eps

/-- `X?` (greedy). -/
def rxOpt (r : Rx) : Rx := Rx.alt r Rx.eps

/-- `\s*` (greedy). -/
def rxSpStar : Rx := Rx.many isSp

/-- `\s+` (greedy). -/
def rxSpPlus : Rx := Rx.seq (Rx.cls isSp) rxSpStar

/-- `([А-ЯA-Z]\.?\s*)` under `IGNORECASE`. -/
def rxNameGroup : Rx :=
  Rx.seq (Rx.cls isPatLetter) (Rx.seq (rxOpt (Rx.cls (fun c => c == '.'))) rxSpStar)

/-- `(...){1,2}` (greedy: two repetitions preferred). -/
def rxRep12 (r : Rx) : Rx := Rx.seq r (rxOpt r)

/-- `[А-ЯA-Z][а-яa-z]+` under `IGNORECASE`. -/
def rxNameTail : Rx :=
  Rx.seq (Rx.cls isPatLetter) (Rx.seq (Rx.cls isPatLetter) (Rx.many isPatLetter))

/-- `\bKEYWORD\s+([А-ЯA-Z]\.?\s*){1,2}[А-ЯA-Z][а-яa-z]+`. -/
def rxKeywordName (kw : String) : Rx :=
  Rx.seq Rx.wordB (Rx.seq (litCI kw) (Rx.seq rxSpPlus (Rx.seq (rxRep12 rxNameGroup) rxNameTail)))

/-- `\bKEYWORD\s*:\s*[^\.]+`. -/
def rxKeywordColon (kw : String) : Rx :=
  Rx.seq Rx.wordB (Rx.seq (litCI kw)
    (Rx.seq rxSpStar (Rx.seq (Rx.cls (fun c => c == ':'))
      (Rx.seq rxSpStar (Rx.seq (Rx.cls (fun c => c != '.')) (Rx.many (fun c => c != '.')))))))

/-- `\bKEYWORD\b`. -/
def rxKeywordBare (kw : String) : Rx := Rx.seq Rx.wordB (Rx.seq (litCI kw) Rx.wordB)

/-- `\b(Все права защищены|Продолжение следует|Ставьте лайки|Подписывайтесь на канал)\b`. -/
def rxBlocklist : Rx :=
  Rx.seq Rx.wordB (Rx.seq
    (Rx.alt (litCI "Все права защищены")
      (Rx.alt (litCI "Продолжение следует")
        (Rx.alt (litCI "Ставьте лайки") (litCI "Подписывайтесь на канал"))))
    Rx.wordB)

/-- The `hallucination_patterns` list, in source order. -/
def hallucinationRxs : List Rx :=
  [rxKeywordName "Редактор субтитров",
   rxKeywordName "Корректор",
   rxKeywordColon "Субтитры",
   rxKeywordColon "Перевод",
   rxKeywordColon "Озвучка",
   rxKeywordBare "Редактор субтитров",
   rxKeywordBare "Корректор",
   rxBlocklist]

/-- `clean_hallucinations` on the character list: delete each pattern in
order, then collapse whitespace runs and strip. -/
def cleanData (l : List Char) : List Char :=
  pstripL (collapseWs (hallucinationRxs.foldl (fun acc rx => runSub rx acc) l))

/-- `clean_hallucinations`: delete each pattern in order, then collapse
whitespace runs and strip. -/
def clean_hallucinations (s : String) : String :=
  String.mk (cleanData s.data)

/- ## Chunk transcription output normalization (`run_transcribe_task` inner loops) -/

/-- A word as returned by the speech-to-text engine, with chunk-local
timestamps. -/
structure RawWord where
  word : String
  start : ℚ
  stop : ℚ
deriving DecidableEq, Repr

/-- An engine segment: text, chunk-local timestamps, and its (possibly empty)
word list. -/
structure RawSeg where
  text : String
  start : ℚ
  stop : ℚ
  words : List RawWord
deriving DecidableEq, Repr

/-- Helper for `re.sub(r'\[.*?\]', '', text)`: after a `[`, find the first
`]` reachable without crossing a newline (`.` does not match `\n`), returning
the remainder. -/
def scanClose : List Char → Option (List Char)
  | [] => none
  | c :: cs => if c = ']' then some cs else if c = '\n' then none else scanClose cs

/-- `re.sub(r'\[.*?\]', '', text)` (fuel-based for kernel evaluation). -/
def stripBracketsF : Nat → List Char → List Char
  | 0, l => l
  | _ + 1, [] => []
  | f + 1, c :: cs =>
      if c = '[' then
        match scanClose cs with
        | some rest => stripBracketsF f rest
        | none => c :: stripBracketsF f cs
      else c :: stripBracketsF f cs

/-- Bracketed-tag removal applied to segment-level text. -/
def stripBrackets (l : List Char) : List Char := stripBracketsF l.length l

/-- Word-level branch of the chunk output loop: strip each word's text, skip
empties, shift timestamps by the padded window offset, and keep the word only
when its absolute midpoint lies in `[actual_start, actual_end]`. -/
def procWords (timeline : List Turn) (cs ce startT : ℚ) :
    List RawWord → List SpeakerWord
  | [] => []
  | w :: rest =>
      if pstrip w.word = "" then procWords timeline cs ce startT rest
      else
        if cs ≤ (w.start + startT + (w.stop + startT)) / 2 ∧
            (w.start + startT + (w.stop + startT)) / 2 ≤ ce then
          ⟨pstrip w.word, w.start + startT, w.stop + startT,
              get_speaker_for_word timeline (w.start + startT) (w.stop + startT)⟩ ::
            procWords timeline cs ce startT rest
        else procWords timeline cs ce startT rest

/-- Per-segment branch: word-level output when present, otherwise the whole
segment (bracket-stripped, trimmed) subject to the same midpoint rule. -/
def procSeg (timeline : List Turn) (cs ce startT : ℚ) (sg : RawSeg) :
    List SpeakerWord :=
  if sg.words = [] then
    if pstrip (String.mk (stripBrackets sg.text.data)) = "" then []
    else
      if cs ≤ (sg.start + startT + (sg.stop + startT)) / 2 ∧
          (sg.start + startT + (sg.stop + startT)) / 2 ≤ ce then
        [⟨pstrip (String.mk (stripBrackets sg.text.data)), sg.start + startT,
            sg.stop + startT,
            get_speaker_for_word timeline (sg.start + startT) (sg.stop + startT)⟩]
      else []
  else procWords timeline cs ce startT sg.words

/-- Normalization of one chunk's engine output: the absolute offset is
`max(0, chunk.start - pad)` with `pad = 10`. -/
def processChunk (timeline : List Turn) (cs ce : ℚ) (segs : List RawSeg) :
    List SpeakerWord :=
  segs.foldr (fun sg acc => procSeg timeline cs ce (max 0 (cs - 10)) sg ++ acc) []

/- ## Engine fallback (`except` handler of the chunk loop) -/

/-- An engine exception: `str(e)` plus the `message` attribute probed by
`getattr(chunk_err, "message", "")`. -/
structure EngErr where
  str : String
  message : String
deriving DecidableEq, Repr

/-- Case folding of a whole string (`str.lower()` on the relevant alphabets). -/
def lowerStr (s : String) : List Char := s.data.map foldC

/-- Does `small` occur contiguously in `hay` starting at the front? -/
def leadsWith : List Char → List Char → Bool
  | [], _ => true
  | _ :: _, [] => false
  | a :: as, b :: bs => a == b && leadsWith as bs

/-- Contiguous-substring test (Python `in` on strings). -/
def hasSub (n : List Char) : List Char → Bool
  | [] => leadsWith n []
  | c :: cs => leadsWith n (c :: cs) || hasSub n cs

/-- The hardware/driver-failure classifier:
`"cublas" in str(e).lower() or "cudnn" in str(e).lower() or
 getattr(e, "message", "") == "Library cublas64_12.dll is not found or cannot be loaded"`. -/
def isCudaErr (e : EngErr) : Bool :=
  hasSub "cublas".data (lowerStr e.str) || hasSub "cudnn".data (lowerStr e.str) ||
    e.message == "Library cublas64_12.dll is not found or cannot be loaded"

/-- Outcome of transcribing one chunk: normalized words, a logged skip, or an
exception escaping the chunk handler (which the outer handler turns into the
task's `error` state). -/
inductive ChunkOutcome where
  | words : List SpeakerWord → ChunkOutcome
  | skipped : ChunkOutcome
  | fatal : EngErr → ChunkOutcome
deriving DecidableEq, Repr

/-- Per-chunk execution with fallback: primary engine; on a cuda-classified
failure the fallback engine at reduced then full precision (the full-precision
retry is not guarded, so its failure escapes); any other failure skips the
chunk. -/
def runChunk (primary fb16 fb32 : Except EngErr (List RawSeg))
    (timeline : List Turn) (cs ce : ℚ) : ChunkOutcome :=
  match primary with
  | .ok segs => .words (processChunk timeline cs ce segs)
  | .error e =>
      if isCudaErr e then
        match fb16 with
        | .ok segs => .words (processChunk timeline cs ce segs)
        | .error _ =>
            match fb32 with
            | .ok segs => .words (processChunk timeline cs ce segs)
            | .error e2 => .fatal e2
      else .skipped

/-- The chunk loop: each chunk whose padded window has positive length is
transcribed (with fallback); a fatal outcome aborts with the exception,
otherwise the normalized words are concatenated in order. -/
def execChunks (pp f16 f32 : Nat → Except EngErr (List RawSeg))
    (timeline : List Turn) : Nat → List Chunk → Except EngErr (List SpeakerWord)
  | _, [] => .ok []
  | i, c :: rest =>
      if c.stop + 10 - max 0 (c.start - 10) ≤ 0 then
        execChunks pp f16 f32 timeline (i + 1) rest
      else
        match runChunk (pp i) (f16 i) (f32 i) timeline c.start c.stop with
        | .fatal e => .error e
        | .skipped => execChunks pp f16 f32 timeline (i + 1) rest
        | .words ws =>
            match execChunks pp f16 f32 timeline (i + 1) rest with
            | .error e => .error e
            | .ok rest2 => .ok (ws ++ rest2)

/- ## Segment assembler (final grouping + smoothing) -/

/-- `format_timestamp(seconds)` (HH:MM:SS or MM:SS). Modelled on the integer
part of the rational timestamp. -/
def format_timestamp (seconds : ℚ) : String :=
  let total := seconds.floor.toNat
  let hours := total / 3600
  let minutes := (total % 3600) / 60
  let secs := total % 60
  let two := fun (n : Nat) => if n < 10 then "0" ++ toString n else toString n
  if hours > 0 then two hours ++ ":" ++ two minutes ++ ":" ++ two secs
  else two minutes ++ ":" ++ two secs

/-- Flush of one accumulated same-speaker run: assign (or reuse) the display
name first, then emit the segment only when the filtered text is non-empty. -/
def flushSeg (map : List (String × String)) (counter : Nat) (raw : String)
    (start : ℚ) (wordsAcc : List String) (acc : List Segment) :
    List Segment × List (String × String) × Nat :=
  let mc : List (String × String) × Nat :=
    match map.lookup raw with
    | some _ => (map, counter)
    | none => (map ++ [(raw, "Speaker " ++ toString (counter + 1))], counter + 1)
  let name := ((mc.1.lookup raw).getD "")
  let text := clean_hallucinations (String.intercalate " " wordsAcc)
  if text = "" then (acc, mc.1, mc.2)
  else (acc ++ [⟨start, format_timestamp start, text, name⟩], mc.1, mc.2)

/-- The grouping loop over the attributed word stream: extend the current run
while `speaker_raw` is unchanged, flush on change, flush the final run. -/
def groupLoop (curRaw : String) (curStart : ℚ) (curWords : List String)
    (map : List (String × String)) (counter : Nat) (acc : List Segment) :
    List SpeakerWord → List Segment
  | [] => (flushSeg map counter curRaw curStart curWords acc).1
  | sw :: rest =>
      if sw.speaker_raw == curRaw then
        groupLoop curRaw curStart (curWords ++ [sw.word]) map counter acc rest
      else
        let f := flushSeg map counter curRaw curStart curWords acc
        groupLoop sw.speaker_raw sw.start [sw.word] f.2.1 f.2.2 f.1 rest

/-- Adjacency smoothing: a segment with the same display speaker as the last
kept segment is folded into it (text concatenated with a space). -/
def smoothAux (cur : Segment) : List Segment → List Segment
  | [] => [cur]
  | s :: rest =>
      if s.speaker == cur.speaker then
        smoothAux { cur with text := cur.text ++ " " ++ s.text } rest
      else cur :: smoothAux s rest

/-- `merge adjacent same-speaker segments` pass. -/
def smooth : List Segment → List Segment
  | [] => []
  | s :: rest => smoothAux s rest

/-- The segment assembler: group consecutive same-`speaker_raw` words into
segments (dropping those whose filtered text is empty) and smooth. -/
def assemble (ws : List SpeakerWord) : List Segment :=
  match ws with
  | [] => smooth []
  | w :: rest => smooth (groupLoop w.speaker_raw w.start [w.word] [] 0 [] rest)

/- ## Pipeline controller outcome (`run_transcribe_task`) -/

/-- Terminal pipeline outcome as observable through the task record: the
`completed` status with the final smoothed result, or the `error` status with
the escaped exception. -/
inductive PipeOutcome where
  | completed : List Segment → PipeOutcome
  | error : EngErr → PipeOutcome
deriving DecidableEq, Repr

/-- The transcription task: plan chunks from the timeline (with the
duration-based fallback), execute them with per-chunk fallback, and assemble;
an escaped exception yields the `error` state. -/
def runPipeline (timeline : List Turn) (duration : ℚ)
    (pp f16 f32 : Nat → Except EngErr (List RawSeg)) : PipeOutcome :=
  match execChunks pp f16 f32 timeline 0 (planChunks timeline duration) with
  | .error e => .error e
  | .ok ws => .completed (assemble ws)

/- ## Speaker rename (`update_speaker`) -/

/-- `update_speaker`: with a valid segment index, bulk-rename every segment
whose speaker equals the indexed segment's current speaker; otherwise leave
the result untouched. -/
def update_speaker (result : List Segment) (idx : Nat) (newName : String) :
    List Segment :=
  if h : idx < result.length then
    let old := (result.get ⟨idx, h⟩).speaker
    result.map (fun s => if s.speaker == old then { s with speaker := newName } else s)
  else result

/-- Collapsed-whitespace shape: every whitespace character is a plain space
and no two whitespace characters are adjacent. This is the invariant
established by `collapseWs` and preserved by stripping. -/
def GoodWs (l : List Char) : Prop :=
  (∀ c ∈ l, isSp c = true → c = ' ') ∧
  List.Chain' (fun a b => ¬(isSp a = true ∧ isSp b = true)) l

/-- A primary engine that always raises the missing-cublas DLL error. -/
def exCudaPrimary : Nat → Except EngErr (List RawSeg) :=
  fun _ => .error ⟨"Library cublas64_12.dll is not found", ""⟩

/-- A fallback engine invocation that always raises an unrelated error. -/
def exFailFallback : Nat → Except EngErr (List RawSeg) :=
  fun _ => .error ⟨"out of memory", ""⟩

/- ## Lemmas about the attributor loop -/

/-- When no turn strictly improves on the running best overlap, the scan
leaves its accumulator unchanged. -/
theorem ovLoop_const (ws we : ℚ) (l : List Turn) (best : Option String) (bo : ℚ)
    (h : ∀ u ∈ l, min we u.stop - max ws u.start ≤ bo) :
    ovLoop ws we l best bo = (best, bo) := by
  induction l with
  | nil => rfl
  | cons t rest ih =>
      have ht := h t (List.mem_cons_self t rest)
      have hrest : ∀ u ∈ rest, min we u.stop - max ws u.start ≤ bo :=
        fun u hu => h u (List.mem_cons_of_mem _ hu)
      simp only [ovLoop]
      split
      · split
        · next hgt => exact absurd hgt (by linarith)
        · exact ih hrest
      · exact ih hrest

/-- If `t`'s overlap equals the full word length, every other turn's overlap
is strictly smaller, and the word is non-degenerate, the scan settles on
`t`'s speaker with the full overlap. -/
theorem ovLoop_unique_max (ws we : ℚ) (t : Turn) (hlt : ws < we)
    (hmax : max ws t.start = ws) (hmin : min we t.stop = we) :
    ∀ (l : List Turn) (best : Option String) (bo : ℚ),
    t ∈ l → bo < we - ws →
    (∀ u ∈ l, u ≠ t → min we u.stop - max ws u.start < we - ws) →
    ovLoop ws we l best bo = (some t.speaker, we - ws) := by
  intro l
  induction l with
  | nil => intro best bo hmem _ _; cases hmem
  | cons u rest ih =>
      intro best bo hmem hbo hothers
      by_cases hu : u = t
      · subst hu
        simp only [ovLoop, hmax, hmin]
        rw [if_pos (show we > ws from hlt), if_pos (show we - ws > bo from hbo)]
        exact ovLoop_const ws we rest _ _ (fun v hv => by
          by_cases hvt : v = u
          · subst hvt; rw [hmax, hmin]
          · exact le_of_lt (hothers v (List.mem_cons_of_mem _ hv) hvt))
      · have hmem2 : t ∈ rest := by
          rcases List.mem_cons.mp hmem with h | h
          · exact absurd h.symm hu
          · exact h
        have hothers2 : ∀ v ∈ rest, v ≠ t → min we v.stop - max ws v.start < we - ws :=
          fun v hv => hothers v (List.mem_cons_of_mem _ hv)
        have hu2 : min we u.stop - max ws u.start < we - ws :=
          hothers u (List.mem_cons_self u rest) hu
        simp only [ovLoop]
        split
        · split
          · next hgt => exact ih _ _ hmem2 hu2 hothers2
          · exact ih _ _ hmem2 hbo hothers2
        · exact ih _ _ hmem2 hbo hothers2

/-- `nearestTurn` returns the earliest turn attaining the minimal
nearest-edge distance: it beats every earlier turn strictly and every turn
weakly. -/
theorem nearestTurn_spec (mid : ℚ) :
    ∀ (l : List Turn) (cur : Turn),
    ∃ pre u post, cur :: l = pre ++ u :: post ∧ nearestTurn mid cur l = u ∧
      (∀ v ∈ pre, edgeDist mid u < edgeDist mid v) ∧
      (∀ v ∈ cur :: l, edgeDist mid u ≤ edgeDist mid v) := by
  intro l
  induction l with
  | nil =>
      intro cur
      exact ⟨[], cur, [], rfl, rfl, by simp, by simp⟩
  | cons t rest ih =>
      intro cur
      by_cases h : edgeDist mid t < edgeDist mid cur
      · obtain ⟨pre, u, post, heq, hres, hstrict, hle⟩ := ih t
        refine ⟨cur :: pre, u, post, by rw [List.cons_append, ← heq], ?_, ?_, ?_⟩
        · simpa only [nearestTurn, if_pos h] using hres
        · intro v hv
          rcases List.mem_cons.mp hv with rfl | hv2
          · exact lt_of_le_of_lt (hle t (List.mem_cons_self t rest)) h
          · exact hstrict v hv2
        · intro v hv
          rcases List.mem_cons.mp hv with rfl | hv2
          · exact le_of_lt (lt_of_le_of_lt (hle t (List.mem_cons_self t rest)) h)
          · exact hle v hv2
      · obtain ⟨pre, u, post, heq, hres, hstrict, hle⟩ := ih cur
        have hres2 : nearestTurn mid cur (t :: rest) = u := by
          simpa only [nearestTurn, if_neg h] using hres
        cases pre with
        | nil =>
            simp only [List.nil_append] at heq
            obtain ⟨rfl, rfl⟩ : cur = u ∧ rest = post := by
              constructor
              · exact (List.cons.injEq _ _ _ _ ▸ heq).1
              · exact (List.cons.injEq _ _ _ _ ▸ heq).2
            refine ⟨[], cur, t :: rest, rfl, hres2, by simp, ?_⟩
            intro v hv
            rcases List.mem_cons.mp hv with rfl | hv2
            · exact le_refl _
            · rcases List.mem_cons.mp hv2 with rfl | hv3
              · exact not_lt.mp h
              · exact hle v (List.mem_cons_of_mem _ hv3)
        | cons p pre2 =>
            simp only [List.cons_append] at heq
            obtain ⟨rfl, heq2⟩ : p = cur ∧ rest = pre2 ++ u :: post := by
              constructor
              · exact ((List.cons.injEq _ _ _ _ ▸ heq).1).symm
              · exact (List.cons.injEq _ _ _ _ ▸ heq).2
            have hcu : edgeDist mid u < edgeDist mid p :=
              hstrict p (List.mem_cons_self p pre2)
            refine ⟨p :: t :: pre2, u, post, by simp [heq2], hres2, ?_, ?_⟩
            · intro v hv
              rcases List.mem_cons.mp hv with rfl | hv2
              · exact hcu
              · rcases List.mem_cons.mp hv2 with rfl | hv3
                · exact lt_of_lt_of_le hcu (not_lt.mp h)
                · exact hstrict v (List.mem_cons_of_mem _ hv3)
            · intro v hv
              rcases List.mem_cons.mp hv with rfl | hv2
              · exact le_of_lt hcu
              · rcases List.mem_cons.mp hv2 with rfl | hv3
                · exact le_trans (le_of_lt hcu) (not_lt.mp h)
                · exact hle v (List.mem_cons_of_mem _ (heq2 ▸ hv3) )

/-- C2 (amended): a word interval of positive length lying fully inside
exactly one diarization turn whose speaker label is non-empty is attributed
to that turn's speaker, regardless of the other turns' positions. -/
theorem c2_unique_turn_speaker (l : List Turn) (t : Turn) (ws we : ℚ)
    (hmem : t ∈ l) (hs : t.start ≤ ws) (he : we ≤ t.stop) (hlt : ws < we)
    (huniq : ∀ u ∈ l, u ≠ t → ¬(u.start ≤ ws ∧ we ≤ u.stop))
    (hspk : t.speaker ≠ "") :
    get_speaker_for_word l ws we = t.speaker := by
  have hmax : max ws t.start = ws := max_eq_left hs
  have hmin : min we t.stop = we := min_eq_left he
  have h5 : ∀ u ∈ l, u ≠ t → min we u.stop - max ws u.start < we - ws := by
    intro u hu hne
    have hnot := huniq u hu hne
    by_cases hA : u.start ≤ ws
    · have hB : ¬(we ≤ u.stop) := fun hB => hnot ⟨hA, hB⟩
      have h1 : min we u.stop ≤ u.stop := min_le_right _ _
      have h2 : ws ≤ max ws u.start := le_max_left _ _
      push_neg at hB
      linarith
    · push_neg at hA
      have h1 : min we u.stop ≤ we := min_le_left _ _
      have h2 : u.start ≤ max ws u.start := le_max_right _ _
      linarith
  obtain ⟨t0, rest, rfl⟩ : ∃ t0 rest, l = t0 :: rest := by
    cases l with
    | nil => cases hmem
    | cons t0 rest => exact ⟨t0, rest, rfl⟩
  have hloop := ovLoop_unique_max ws we t hlt hmax hmin (t0 :: rest) none 0
    hmem (by linarith) h5
  simp only [get_speaker_for_word, hloop]
  rw [if_pos hspk]

/-- C2 witness: word `[1, 2]` inside the lone turn `(0, 10, "A")`. -/
theorem c2_witness :
    ((⟨0, 10, "A"⟩ : Turn) ∈ [(⟨0, 10, "A"⟩ : Turn)] ∧ (0 : ℚ) ≤ 1 ∧ (2 : ℚ) ≤ 10 ∧
      (1 : ℚ) < 2) ∧
    get_speaker_for_word [⟨0, 10, "A"⟩] 1 2 = "A" :=
  ⟨⟨by decide, by decide, by decide, by decide⟩,
    c2_unique_turn_speaker [⟨0, 10, "A"⟩] ⟨0, 10, "A"⟩ 1 2 (by decide) (by decide)
      (by decide) (by decide) (by intro u hu hne; simp at hu; exact absurd hu hne)
      (by decide)⟩

/-- C2 counterexample: the word `[1, 2]` lies fully inside the first turn and
inside no other turn, yet — because the containing turn's speaker label is the
empty string and Python's `if best_speaker:` treats `""` as falsy — the code
falls through to the nearest-edge fallback and returns the *other* turn's
speaker. -/
theorem c2_counterexample :
    ((0 : ℚ) ≤ 1 ∧ (2 : ℚ) ≤ 10) ∧ ¬((8 / 5 : ℚ) ≤ 1) ∧
    get_speaker_for_word [⟨0, 10, ""⟩, ⟨8 / 5, 20, "B"⟩] 1 2 = "B" ∧
    "B" ≠ "" := by with_unfolding_all decide

/-- C3: for a word interval overlapping no diarization turn, the attributor
returns `"Unknown"` on an empty timeline, and otherwise the speaker of the
earliest turn attaining the minimal nearest-edge distance to the word
midpoint (strictly closer than every earlier turn, weakly closer than all). -/
theorem c3_gap_fallback (t0 : Turn) (rest : List Turn) (ws we : ℚ)
    (hno : ∀ u ∈ t0 :: rest, min we u.stop ≤ max ws u.start) :
    get_speaker_for_word [] ws we = "Unknown" ∧
    ∃ pre u post, t0 :: rest = pre ++ u :: post ∧
      get_speaker_for_word (t0 :: rest) ws we = u.speaker ∧
      (∀ v ∈ pre, edgeDist ((ws + we) / 2) u < edgeDist ((ws + we) / 2) v) ∧
      (∀ v ∈ t0 :: rest, edgeDist ((ws + we) / 2) u ≤ edgeDist ((ws + we) / 2) v) := by
  refine ⟨rfl, ?_⟩
  have hloop : ovLoop ws we (t0 :: rest) none 0 = (none, 0) :=
    ovLoop_const ws we _ none 0 (fun u hu => by
      have := hno u hu; linarith)
  obtain ⟨pre, u, post, heq, hres, hstrict, hle⟩ :=
    nearestTurn_spec ((ws + we) / 2) rest t0
  exact ⟨pre, u, post, heq, by simp only [get_speaker_for_word, hloop, hres], hstrict, hle⟩

/-- C3 witness: word `[3/2, 8/5]` in the gap between `(0,1,"A")` and
`(3,4,"B")`; the midpoint `31/20` is nearer to the first turn's end. -/
theorem c3_witness :
    (∀ u ∈ [(⟨0, 1, "A"⟩ : Turn), ⟨3, 4, "B"⟩],
      min (8 / 5 : ℚ) u.stop ≤ max (3 / 2 : ℚ) u.start) ∧
    (get_speaker_for_word [] (3 / 2) (8 / 5) = "Unknown" ∧
     ∃ pre u post, [(⟨0, 1, "A"⟩ : Turn), ⟨3, 4, "B"⟩] = pre ++ u :: post ∧
       get_speaker_for_word [⟨0, 1, "A"⟩, ⟨3, 4, "B"⟩] (3 / 2) (8 / 5) = u.speaker ∧
       (∀ v ∈ pre, edgeDist ((3 / 2 + 8 / 5) / 2) u < edgeDist ((3 / 2 + 8 / 5) / 2) v) ∧
       (∀ v ∈ [(⟨0, 1, "A"⟩ : Turn), ⟨3, 4, "B"⟩],
         edgeDist ((3 / 2 + 8 / 5) / 2) u ≤ edgeDist ((3 / 2 + 8 / 5) / 2) v)) :=
  ⟨by with_unfolding_all decide,
    c3_gap_fallback ⟨0, 1, "A"⟩ [⟨3, 4, "B"⟩] (3 / 2) (8 / 5) (by with_unfolding_all decide)⟩

/-- C9: empty diarization timeline and zero measured duration yield an empty
chunk sequence, and the pipeline completes with an empty transcript rather
than entering the error state, whatever the engines would do. -/
theorem c9_empty_input_completes (pp f16 f32 : Nat → Except EngErr (List RawSeg)) :
    planChunks [] 0 = [] ∧ runPipeline [] 0 pp f16 f32 = .completed [] := by
  have h : planChunks [] 0 = [] := by with_unfolding_all rfl
  exact ⟨h, by simp only [runPipeline, h]; rfl⟩

/-- C10: with a valid segment index, `update_speaker` renames exactly the
segments whose speaker equals the indexed segment's old name; the list
length and every other field of every segment are unchanged. -/
theorem c10_update_speaker_frame (result : List Segment) (idx : Nat)
    (newName : String) (h : idx < result.length) :
    (update_speaker result idx newName).length = result.length ∧
    ∀ i, i < result.length →
      ∃ s s2, result[i]? = some s ∧ (update_speaker result idx newName)[i]? = some s2 ∧
        s2.start = s.start ∧ s2.timestamp = s.timestamp ∧ s2.text = s.text ∧
        (s.speaker = (result.get ⟨idx, h⟩).speaker → s2.speaker = newName) ∧
        (s.speaker ≠ (result.get ⟨idx, h⟩).speaker → s2.speaker = s.speaker) := by
  simp only [update_speaker, dif_pos h]
  refine ⟨List.length_map _ _, ?_⟩
  intro i hi
  refine ⟨result[i],
    if result[i].speaker == (result.get ⟨idx, h⟩).speaker then
      { result[i] with speaker := newName } else result[i],
    by rw [List.getElem?_eq_getElem hi],
    by rw [List.getElem?_map, List.getElem?_eq_getElem hi]; rfl, ?_⟩
  by_cases hsp : result[i].speaker = (result.get ⟨idx, h⟩).speaker
  · rw [if_pos (by simpa using hsp)]
    exact ⟨rfl, rfl, rfl, fun _ => rfl, fun hne => absurd hsp hne⟩
  · rw [if_neg (by simpa using hsp)]
    exact ⟨rfl, rfl, rfl, fun heq => absurd heq hsp, fun _ => rfl⟩

/-- C10 witness on a concrete two-segment result. -/
theorem c10_witness :
    (0 < ([⟨0, "00:00", "привет", "Speaker 1"⟩,
           ⟨2, "00:02", "угу", "Speaker 2"⟩] : List Segment).length) ∧
    update_speaker [⟨0, "00:00", "привет", "Speaker 1"⟩,
                    ⟨2, "00:02", "угу", "Speaker 2"⟩] 0 "Доктор" =
      [⟨0, "00:00", "привет", "Доктор"⟩, ⟨2, "00:02", "угу", "Speaker 2"⟩] ∧
    (update_speaker [⟨0, "00:00", "привет", "Speaker 1"⟩,
                     ⟨2, "00:02", "угу", "Speaker 2"⟩] 0 "Доктор").length = 2 := by
  refine ⟨by decide, by decide, ?_⟩
  have := (c10_update_speaker_frame
    [⟨0, "00:00", "привет", "Speaker 1"⟩, ⟨2, "00:02", "угу", "Speaker 2"⟩]
    0 "Доктор" (by decide)).1
  simpa using this

/- ## Lemmas about the chunk planner -/

/-- The first chunk produced always opens at the running `chunk_start_time`. -/
theorem planAux_first (l : List Turn) :
    ∀ s cur, l ≠ [] → ∃ b ts tl, planAux s cur l = Chunk.mk s b ts :: tl := by
  induction l with
  | nil => intro s cur h; exact absurd rfl h
  | cons e tail ih =>
      intro s cur _
      cases tail with
      | nil => exact ⟨e.stop, cur ++ [e], [], rfl⟩
      | cons f rest =>
          simp only [planAux]
          split
          · exact ⟨e.stop, cur ++ [e], planAux f.start [] (f :: rest), rfl⟩
          · exact ih s (cur ++ [e]) (by simp)

/-- The last chunk produced always closes at the last turn's end. -/
theorem planAux_last (l : List Turn) :
    ∀ s cur, l ≠ [] →
      ((planAux s cur l).getLast?).map Chunk.stop = (l.getLast?).map Turn.stop := by
  induction l with
  | nil => intro s cur h; exact absurd rfl h
  | cons e tail ih =>
      intro s cur _
      cases tail with
      | nil => rfl
      | cons f rest =>
          simp only [planAux]
          split
          · obtain ⟨b, ts, tl, heq⟩ := planAux_first (f :: rest) f.start [] (by simp)
            rw [heq, List.getLast?_cons_cons, ← heq, ih f.start [] (by simp),
              List.getLast?_cons_cons]
          · rw [ih s (cur ++ [e]) (by simp), List.getLast?_cons_cons]

/-- Every chunk boundary coincides with a turn boundary of the ambient
timeline: chunk starts are turn starts, chunk ends are turn ends. -/
theorem planAux_bounds (L : List Turn) :
    ∀ (l : List Turn) s cur, (∀ x, x ∈ l → x ∈ L) → (∃ t, t ∈ L ∧ s = t.start) →
    ∀ c ∈ planAux s cur l,
      (∃ t ∈ L, c.start = t.start) ∧ (∃ t ∈ L, c.stop = t.stop) := by
  intro l
  induction l with
  | nil => intro s cur _ _ c hc; cases hc
  | cons e tail ih =>
      intro s cur hsub hs c hc
      cases tail with
      | nil =>
          simp only [planAux, List.mem_singleton] at hc
          subst hc
          obtain ⟨t, htL, hts⟩ := hs
          exact ⟨⟨t, htL, hts⟩, ⟨e, hsub e (by simp), rfl⟩⟩
      | cons f rest =>
          simp only [planAux] at hc
          split at hc
          · rcases List.mem_cons.mp hc with rfl | hc2
            · obtain ⟨t, htL, hts⟩ := hs
              exact ⟨⟨t, htL, hts⟩, ⟨e, hsub e (by simp), rfl⟩⟩
            · exact ih f.start [] (fun x hx => hsub x (List.mem_cons_of_mem _ hx))
                ⟨f, hsub f (by simp), rfl⟩ c hc2
          · exact ih s (cur ++ [e]) (fun x hx => hsub x (List.mem_cons_of_mem _ hx)) hs c hc

/-- On a contiguous timeline, consecutive chunks share their boundary. -/
theorem planAux_chain (l : List Turn) :
    ∀ s cur, List.Chain' (fun a b : Turn => b.start = a.stop) l →
    List.Chain' (fun a b : Chunk => b.start = a.stop) (planAux s cur l) := by
  induction l with
  | nil => intro s cur _; simp [planAux]
  | cons e tail ih =>
      intro s cur hcont
      cases tail with
      | nil => simp [planAux]
      | cons f rest =>
          have h1 : f.start = e.stop := (List.chain'_cons.mp hcont).1
          have h2 : List.Chain' (fun a b : Turn => b.start = a.stop) (f :: rest) :=
            (List.chain'_cons.mp hcont).2
          simp only [planAux]
          split
          · obtain ⟨b, ts, tl, heq⟩ := planAux_first (f :: rest) f.start [] (by simp)
            rw [heq]
            exact List.chain'_cons.mpr ⟨h1, heq ▸ ih f.start [] h2⟩
          · exact ih s (cur ++ [e]) h2

/-- On a contiguous, well-formed timeline every chunk has `start ≤ stop`. -/
theorem planAux_wf :
    ∀ (tl : List Turn) (e : Turn) (s : ℚ) (cur : List Turn), s ≤ e.start →
    (∀ t ∈ e :: tl, t.start ≤ t.stop) →
    List.Chain' (fun a b : Turn => b.start = a.stop) (e :: tl) →
    ∀ c ∈ planAux s cur (e :: tl), c.start ≤ c.stop := by
  intro tl
  induction tl with
  | nil =>
      intro e s cur hse hwf _ c hc
      simp only [planAux, List.mem_singleton] at hc
      subst hc
      exact le_trans hse (hwf e (by simp))
  | cons f rest ih =>
      intro e s cur hse hwf hcont c hc
      have h1 : f.start = e.stop := (List.chain'_cons.mp hcont).1
      have h2 := (List.chain'_cons.mp hcont).2
      have hwf2 : ∀ t ∈ f :: rest, t.start ≤ t.stop :=
        fun t ht => hwf t (List.mem_cons_of_mem _ ht)
      simp only [planAux] at hc
      split at hc
      · rcases List.mem_cons.mp hc with rfl | hc2
        · exact le_trans hse (hwf e (by simp))
        · exact ih f f.start [] le_rfl hwf2 h2 c hc2
      · have hsf : s ≤ f.start := by
          rw [h1]; exact le_trans hse (hwf e (by simp))
        exact ih f s (cur ++ [e]) hsf hwf2 h2 c hc

/- ## Generic facts about boundary-chained chunk lists -/

/-- A chained, well-formed chunk list starting at `c0` covers every point of
`[c0.start, last.stop]`. -/
theorem chunks_cover :
    ∀ (cs : List Chunk) (c0 b : Chunk) (x : ℚ),
    List.Chain' (fun a b : Chunk => b.start = a.stop) (c0 :: cs) →
    (∀ c ∈ c0 :: cs, c.start ≤ c.stop) →
    (c0 :: cs).getLast? = some b →
    c0.start ≤ x → x ≤ b.stop →
    ∃ c ∈ c0 :: cs, c.start ≤ x ∧ x ≤ c.stop := by
  intro cs
  induction cs with
  | nil =>
      intro c0 b x _ _ hlast hlo hhi
      obtain rfl : c0 = b := by simpa using hlast
      exact ⟨c0, by simp, hlo, hhi⟩
  | cons c1 rest ih =>
      intro c0 b x hchain hwf hlast hlo hhi
      by_cases hx : x ≤ c0.stop
      · exact ⟨c0, by simp, hlo, hx⟩
      · have h1 : c1.start = c0.stop := (List.chain'_cons.mp hchain).1
        have hlo2 : c1.start ≤ x := by rw [h1]; exact le_of_not_le hx
        obtain ⟨c, hc, h3, h4⟩ := ih c1 b x (List.chain'_cons.mp hchain).2
          (fun c hc => hwf c (List.mem_cons_of_mem _ hc))
          (by rw [← List.getLast?_cons_cons (l := rest) (a := c0)]; exact hlast) hlo2 hhi
        exact ⟨c, List.mem_cons_of_mem _ hc, h3, h4⟩

/-- In a chained, well-formed chunk list every chunk starts no earlier than
the head. -/
theorem chunks_ge_head :
    ∀ (cs : List Chunk) (c0 : Chunk),
    List.Chain' (fun a b : Chunk => b.start = a.stop) (c0 :: cs) →
    (∀ c ∈ c0 :: cs, c.start ≤ c.stop) →
    ∀ c ∈ c0 :: cs, c0.start ≤ c.start := by
  intro cs
  induction cs with
  | nil =>
      intro c0 _ _ c hc
      obtain rfl : c = c0 := by simpa using hc
      exact le_rfl
  | cons c1 rest ih =>
      intro c0 hchain hwf c hc
      have h1 : c1.start = c0.stop := (List.chain'_cons.mp hchain).1
      rcases List.mem_cons.mp hc with rfl | hc2
      · exact le_rfl
      · have : c1.start ≤ c.start := ih c1 (List.chain'_cons.mp hchain).2
          (fun d hd => hwf d (List.mem_cons_of_mem _ hd)) c hc2
        have h0 : c0.start ≤ c0.stop := hwf c0 (by simp)
        rw [h1] at this
        linarith

/-- In a chained, well-formed chunk list every chunk stops no later than the
last chunk. -/
theorem chunks_le_last :
    ∀ (cs : List Chunk) (c0 b : Chunk),
    List.Chain' (fun a b : Chunk => b.start = a.stop) (c0 :: cs) →
    (∀ c ∈ c0 :: cs, c.start ≤ c.stop) →
    (c0 :: cs).getLast? = some b →
    ∀ c ∈ c0 :: cs, c.stop ≤ b.stop := by
  intro cs
  induction cs with
  | nil =>
      intro c0 b _ _ hlast c hc
      obtain rfl : c0 = b := by simpa using hlast
      obtain rfl : c = c0 := by simpa using hc
      exact le_rfl
  | cons c1 rest ih =>
      intro c0 b hchain hwf hlast c hc
      have h1 : c1.start = c0.stop := (List.chain'_cons.mp hchain).1
      have htail := ih c1 b (List.chain'_cons.mp hchain).2
        (fun d hd => hwf d (List.mem_cons_of_mem _ hd))
        (by rw [← List.getLast?_cons_cons (l := rest) (a := c0)]; exact hlast)
      rcases List.mem_cons.mp hc with rfl | hc2
      · have h2 : c1.stop ≤ b.stop := htail c1 (by simp)
        have h3 : c1.start ≤ c1.stop := hwf c1 (by simp)
        linarith [h1 ▸ h3]
      · exact htail c hc2

/-- A chained, well-formed chunk list has pairwise non-overlapping content
intervals (`a.stop ≤ b.start` for every earlier `a`). -/
theorem chunks_pairwise :
    ∀ (cs : List Chunk),
    List.Chain' (fun a b : Chunk => b.start = a.stop) cs →
    (∀ c ∈ cs, c.start ≤ c.stop) →
    List.Pairwise (fun a b : Chunk => a.stop ≤ b.start) cs := by
  intro cs
  induction cs with
  | nil => intro _ _; exact List.Pairwise.nil
  | cons c0 tail ih =>
      intro hchain hwf
      refine List.Pairwise.cons ?_ (ih (List.Chain'.tail hchain)
        (fun c hc => hwf c (List.mem_cons_of_mem _ hc)))
      intro b hb
      cases tail with
      | nil => cases hb
      | cons c1 rest =>
          have h1 : c1.start = c0.stop := (List.chain'_cons.mp hchain).1
          have h2 : c1.start ≤ b.start := chunks_ge_head rest c1
            (List.chain'_cons.mp hchain).2
            (fun d hd => hwf d (List.mem_cons_of_mem _ hd)) b hb
          linarith [h1 ▸ h2]

/-- C1 (amended): on a non-empty, contiguous (each turn starts where the
previous one ends), well-formed (`start ≤ end` per turn) diarization
timeline, the planner's chunks are non-empty, every chunk boundary is a turn
boundary, consecutive chunks share their boundary (no gaps), their content
intervals are pairwise non-overlapping, and their union is exactly
`[timeline[0].start, timeline[-1].end]`. -/
theorem c1_chunk_planner_partition (t0 : Turn) (rest : List Turn)
    (hcont : List.Chain' (fun a b : Turn => b.start = a.stop) (t0 :: rest))
    (hwf : ∀ t ∈ t0 :: rest, t.start ≤ t.stop) :
    natural_chunks (t0 :: rest) ≠ [] ∧
    (∀ c ∈ natural_chunks (t0 :: rest),
        (∃ t ∈ t0 :: rest, c.start = t.start) ∧ (∃ t ∈ t0 :: rest, c.stop = t.stop)) ∧
    List.Chain' (fun a b : Chunk => b.start = a.stop) (natural_chunks (t0 :: rest)) ∧
    List.Pairwise (fun a b : Chunk => a.stop ≤ b.start) (natural_chunks (t0 :: rest)) ∧
    ∀ b, (t0 :: rest).getLast? = some b →
      ∀ x : ℚ, (t0.start ≤ x ∧ x ≤ b.stop) ↔
        ∃ c ∈ natural_chunks (t0 :: rest), c.start ≤ x ∧ x ≤ c.stop := by
  have hchain : List.Chain' (fun a b : Chunk => b.start = a.stop)
      (natural_chunks (t0 :: rest)) := planAux_chain (t0 :: rest) t0.start [] hcont
  have hcwf : ∀ c ∈ natural_chunks (t0 :: rest), c.start ≤ c.stop :=
    planAux_wf rest t0 t0.start [] le_rfl hwf hcont
  obtain ⟨bb, ts, tl, heq⟩ := planAux_first (t0 :: rest) t0.start [] (by simp)
  have hne : natural_chunks (t0 :: rest) ≠ [] := by
    rw [natural_chunks, heq]; simp
  refine ⟨hne, ?_, hchain, chunks_pairwise _ hchain hcwf, ?_⟩
  · exact planAux_bounds (t0 :: rest) (t0 :: rest) t0.start []
      (fun x hx => hx) ⟨t0, by simp, rfl⟩
  · intro b hlast x
    have hlast2 : ((natural_chunks (t0 :: rest)).getLast?).map Chunk.stop =
        some b.stop := by
      rw [natural_chunks, planAux_last (t0 :: rest) t0.start [] (by simp), hlast]
      rfl
    obtain ⟨cb, hcb, hcbstop⟩ : ∃ cb,
        (natural_chunks (t0 :: rest)).getLast? = some cb ∧ cb.stop = b.stop := by
      cases hgl : (natural_chunks (t0 :: rest)).getLast? with
      | none => rw [hgl] at hlast2; cases hlast2
      | some cb =>
          rw [hgl] at hlast2
          exact ⟨cb, rfl, by simpa using hlast2⟩
    rw [natural_chunks, heq] at hcb hchain hcwf ⊢
    constructor
    · intro ⟨hlo, hhi⟩
      exact chunks_cover tl (Chunk.mk t0.start bb ts) cb x hchain hcwf hcb hlo
        (hcbstop ▸ hhi)
    · intro ⟨c, hc, hlo, hhi⟩
      have h1 := chunks_ge_head tl (Chunk.mk t0.start bb ts) hchain hcwf c hc
      have h2 := chunks_le_last tl (Chunk.mk t0.start bb ts) cb hchain hcwf hcb c hc
      exact ⟨le_trans h1 hlo, hcbstop ▸ le_trans hhi h2⟩

/-- C1 witness: contiguous timeline `(0,31,"A"), (31,50,"B")`; the planner
emits boundary-aligned chunks exactly covering `[0, 50]`. -/
theorem c1_witness :
    (List.Chain' (fun a b : Turn => b.start = a.stop)
        [(⟨0, 31, "A"⟩ : Turn), ⟨31, 50, "B"⟩] ∧
      ∀ t ∈ [(⟨0, 31, "A"⟩ : Turn), ⟨31, 50, "B"⟩], t.start ≤ t.stop) ∧
    natural_chunks [(⟨0, 31, "A"⟩ : Turn), ⟨31, 50, "B"⟩] ≠ [] ∧
    ∀ x : ℚ, ((0 : ℚ) ≤ x ∧ x ≤ 50) ↔
      ∃ c ∈ natural_chunks [(⟨0, 31, "A"⟩ : Turn), ⟨31, 50, "B"⟩],
        c.start ≤ x ∧ x ≤ c.stop := by
  have h1 : List.Chain' (fun a b : Turn => b.start = a.stop)
      [(⟨0, 31, "A"⟩ : Turn), ⟨31, 50, "B"⟩] :=
    List.chain'_cons.mpr ⟨rfl, List.chain'_singleton _⟩
  have h2 : ∀ t ∈ [(⟨0, 31, "A"⟩ : Turn), ⟨31, 50, "B"⟩], t.start ≤ t.stop := by
    with_unfolding_all decide
  have h := c1_chunk_planner_partition ⟨0, 31, "A"⟩ [⟨31, 50, "B"⟩] h1 h2
  exact ⟨⟨h1, h2⟩, h.1, fun x => h.2.2.2.2 ⟨31, 50, "B"⟩ rfl x⟩

/-- C1 counterexample: on the (start-ordered but non-contiguous) timeline
`(0,31,"A"), (40,50,"B")` the planner returns chunks `[0,31]` and `[40,50]`:
the point `35` lies in `[timeline[0].start, timeline[-1].end] = [0,50]` but in
no chunk, so the claimed gap-free coverage fails. -/
theorem c1_counterexample :
    ((0 : ℚ) ≤ 35 ∧ (35 : ℚ) ≤ 50) ∧
    (∀ t ∈ [(⟨0, 31, "A"⟩ : Turn), ⟨40, 50, "B"⟩], t.start ≤ t.stop) ∧
    natural_chunks [(⟨0, 31, "A"⟩ : Turn), ⟨40, 50, "B"⟩] =
      [⟨0, 31, [⟨0, 31, "A"⟩]⟩, ⟨40, 50, [⟨40, 50, "B"⟩]⟩] ∧
    ∀ c ∈ natural_chunks [(⟨0, 31, "A"⟩ : Turn), ⟨40, 50, "B"⟩],
      ¬(c.start ≤ 35 ∧ (35 : ℚ) ≤ c.stop) := by
  with_unfolding_all decide

/- ## Lemmas about chunk output normalization -/

/-- The word-level loop as a `filterMap`. -/
theorem procWords_eq_filterMap (timeline : List Turn) (cs ce startT : ℚ)
    (l : List RawWord) :
    procWords timeline cs ce startT l = l.filterMap (fun w =>
      if pstrip w.word = "" then none
      else if cs ≤ (w.start + startT + (w.stop + startT)) / 2 ∧
          (w.start + startT + (w.stop + startT)) / 2 ≤ ce then
        some ⟨pstrip w.word, w.start + startT, w.stop + startT,
          get_speaker_for_word timeline (w.start + startT) (w.stop + startT)⟩
      else none) := by
  induction l with
  | nil => rfl
  | cons w rest ih =>
      by_cases h1 : pstrip w.word = ""
      · simp [procWords, List.filterMap_cons, h1, ih]
      · by_cases h2 : cs ≤ (w.start + startT + (w.stop + startT)) / 2 ∧
            (w.start + startT + (w.stop + startT)) / 2 ≤ ce
        · simp [procWords, List.filterMap_cons, h1, h2, ih]
        · simp [procWords, List.filterMap_cons, h1, h2, ih]

/-- Membership in the word-level normalization loop: a word survives exactly
when its stripped text is non-empty and its offset midpoint lies in the
content window. -/
theorem mem_procWords (timeline : List Turn) (cs ce startT : ℚ)
    (l : List RawWord) (sw : SpeakerWord) :
    sw ∈ procWords timeline cs ce startT l ↔
    ∃ w ∈ l, pstrip w.word ≠ "" ∧
      cs ≤ (w.start + startT + (w.stop + startT)) / 2 ∧
      (w.start + startT + (w.stop + startT)) / 2 ≤ ce ∧
      sw = ⟨pstrip w.word, w.start + startT, w.stop + startT,
        get_speaker_for_word timeline (w.start + startT) (w.stop + startT)⟩ := by
  rw [procWords_eq_filterMap, List.mem_filterMap]
  refine exists_congr fun w => and_congr_right fun _ => ?_
  split
  · next h => simp [h]
  · next h =>
      split
      · next hmid => simp [h, hmid, eq_comm]
      · next hmid =>
          simp only [not_and_or] at hmid
          constructor
          · intro hfalse; cases hfalse
          · rintro ⟨_, hlo, hhi, _⟩
            rcases hmid with hm | hm
            · exact absurd hlo hm
            · exact absurd hhi hm

/-- C4 (amended): per chunk `[cs, ce]` with `pad = 10`, engine timestamps are
shifted by `max(0, cs - 10)`, and an engine word (or, for a word-less
segment, the whole bracket-stripped segment) is retained for attribution if
and only if its stripped text is non-empty AND its absolute midpoint lies in
`[cs, ce]`. -/
theorem c4_midpoint_retention (timeline : List Turn) (cs ce : ℚ)
    (segs : List RawSeg) (sw : SpeakerWord) :
    sw ∈ processChunk timeline cs ce segs ↔
    ∃ sg ∈ segs,
      (sg.words ≠ [] ∧ ∃ w ∈ sg.words, pstrip w.word ≠ "" ∧
        cs ≤ (w.start + max 0 (cs - 10) + (w.stop + max 0 (cs - 10))) / 2 ∧
        (w.start + max 0 (cs - 10) + (w.stop + max 0 (cs - 10))) / 2 ≤ ce ∧
        sw = ⟨pstrip w.word, w.start + max 0 (cs - 10), w.stop + max 0 (cs - 10),
          get_speaker_for_word timeline (w.start + max 0 (cs - 10))
            (w.stop + max 0 (cs - 10))⟩) ∨
      (sg.words = [] ∧ pstrip (String.mk (stripBrackets sg.text.data)) ≠ "" ∧
        cs ≤ (sg.start + max 0 (cs - 10) + (sg.stop + max 0 (cs - 10))) / 2 ∧
        (sg.start + max 0 (cs - 10) + (sg.stop + max 0 (cs - 10))) / 2 ≤ ce ∧
        sw = ⟨pstrip (String.mk (stripBrackets sg.text.data)),
          sg.start + max 0 (cs - 10), sg.stop + max 0 (cs - 10),
          get_speaker_for_word timeline (sg.start + max 0 (cs - 10))
            (sg.stop + max 0 (cs - 10))⟩) := by
  have hmem : sw ∈ processChunk timeline cs ce segs ↔
      ∃ sg ∈ segs, sw ∈ procSeg timeline cs ce (max 0 (cs - 10)) sg := by
    rw [processChunk]
    induction segs with
    | nil => simp
    | cons sg rest ih => simp [List.foldr_cons, ih]
  rw [hmem]
  refine exists_congr fun sg => and_congr_right fun _ => ?_
  by_cases hw : sg.words = []
  · rw [procSeg, if_pos hw]
    constructor
    · intro hin
      refine Or.inr ⟨hw, ?_⟩
      split at hin
      · cases hin
      · next hne =>
          split at hin
          · next hmid =>
              simp only [List.mem_singleton] at hin
              exact ⟨hne, hmid.1, hmid.2, hin⟩
          · cases hin
    · rintro (⟨hne, _⟩ | ⟨_, hne, hlo, hhi, hswp⟩)
      · exact absurd hw hne
      · rw [if_neg hne, if_pos ⟨hlo, hhi⟩]
        simp [hswp]
  · rw [procSeg, if_neg hw, mem_procWords]
    constructor
    · intro h
      exact Or.inl ⟨hw, h⟩
    · rintro (⟨_, h⟩ | ⟨hnil, _⟩)
      · exact h
      · exact absurd hnil hw

/-- C4 counterexample: a whitespace-only engine word whose absolute midpoint
`11/2` lies inside the content window `[0, 30]` is nevertheless dropped, so
retention is not equivalent to the midpoint test alone. -/
theorem c4_counterexample :
    processChunk [] 0 30 [⟨"seg", 0, 0, [⟨"   ", 5, 6⟩]⟩] = [] ∧
    (0 : ℚ) ≤ ((5 : ℚ) + max 0 ((0 : ℚ) - 10) + (6 + max 0 ((0 : ℚ) - 10))) / 2 ∧
    ((5 : ℚ) + max 0 ((0 : ℚ) - 10) + (6 + max 0 ((0 : ℚ) - 10))) / 2 ≤ 30 := by
  with_unfolding_all decide

/- ## Engine fallback semantics -/

/-- C5 (amended): the primary engine's output is used when it succeeds; a
cuda-classified primary failure falls back — for that chunk only — to the
secondary engine at reduced precision, retrying at full precision on a second
failure; any other primary failure merely skips the chunk; the per-chunk
exception escapes (and, through the chunk loop, puts the pipeline in the
error state) exactly when the cuda-classified failure is followed by failures
of both fallback attempts — absent that triple failure, the chunk loop always
completes with a word list. -/
theorem c5_fallback_semantics (p f16 f32 : Except EngErr (List RawSeg))
    (timeline : List Turn) (cs ce : ℚ) :
    (∀ segs, p = .ok segs →
      runChunk p f16 f32 timeline cs ce = .words (processChunk timeline cs ce segs)) ∧
    (∀ e, p = .error e → isCudaErr e = false →
      runChunk p f16 f32 timeline cs ce = .skipped) ∧
    (∀ e segs, p = .error e → isCudaErr e = true → f16 = .ok segs →
      runChunk p f16 f32 timeline cs ce = .words (processChunk timeline cs ce segs)) ∧
    (∀ e e1 segs, p = .error e → isCudaErr e = true → f16 = .error e1 →
      f32 = .ok segs →
      runChunk p f16 f32 timeline cs ce = .words (processChunk timeline cs ce segs)) ∧
    (∀ e e1 e2, p = .error e → isCudaErr e = true → f16 = .error e1 →
      f32 = .error e2 → runChunk p f16 f32 timeline cs ce = .fatal e2) ∧
    (∀ (pp g16 g32 : Nat → Except EngErr (List RawSeg)) (tl : List Turn)
        (i : Nat) (chunks : List Chunk),
      (∀ j e e1 e2, pp j = .error e → isCudaErr e = true → g16 j = .error e1 →
        g32 j = .error e2 → False) →
      ∃ ws, execChunks pp g16 g32 tl i chunks = .ok ws) := by
  refine ⟨?_, ?_, ?_, ?_, ?_, ?_⟩
  · intro segs hp; simp only [runChunk, hp]
  · intro e hp hcuda; simp only [runChunk, hp, hcuda]; rfl
  · intro e segs hp hcuda h16; simp only [runChunk, hp, hcuda, h16, if_true]
  · intro e e1 segs hp hcuda h16 h32
    simp only [runChunk, hp, hcuda, h16, h32, if_true]
  · intro e e1 e2 hp hcuda h16 h32
    simp only [runChunk, hp, hcuda, h16, h32, if_true]
  · intro pp g16 g32 tl i chunks hno
    induction chunks generalizing i with
    | nil => exact ⟨[], rfl⟩
    | cons c rest ih =>
        rw [execChunks]
        split
        · exact ih (i + 1)
        · cases hp : pp i with
          | ok segs =>
              obtain ⟨ws, hws⟩ := ih (i + 1)
              simp only [runChunk, hp, hws]
              exact ⟨_, rfl⟩
          | error e =>
              by_cases hcuda : isCudaErr e
              · cases h16 : g16 i with
                | ok segs =>
                    obtain ⟨ws, hws⟩ := ih (i + 1)
                    simp only [runChunk, hp, hcuda, if_true, h16, hws]
                    exact ⟨_, rfl⟩
                | error e1 =>
                    cases h32 : g32 i with
                    | ok segs =>
                        obtain ⟨ws, hws⟩ := ih (i + 1)
                        simp only [runChunk, hp, hcuda, if_true, h16, h32, hws]
                        exact ⟨_, rfl⟩
                    | error e2 =>
                        exact absurd (hno i e e1 e2 hp hcuda h16 h32) (fun h => h)
              · obtain ⟨ws, hws⟩ := ih (i + 1)
                simp only [Bool.not_eq_true] at hcuda
                simp only [runChunk, hp, hcuda, Bool.false_eq_true, if_false, hws]
                exact ⟨ws, rfl⟩

/-- C5 witness: a non-cuda primary failure merely skips the chunk. -/
theorem c5_witness :
    runChunk (.error ⟨"disk error", ""⟩) (.ok []) (.ok []) [] 0 30 = .skipped :=
  (c5_fallback_semantics (.error ⟨"disk error", ""⟩) (.ok []) (.ok []) [] 0 30).2.1
    ⟨"disk error", ""⟩ rfl (by decide)

/-- C5 counterexample: when the cuda-classified primary failure is followed
by failures of both fallback attempts, the chunk's exception escapes and the
whole pipeline ends in the `error` state — contradicting "no chunk failure
causes the whole pipeline to end in the error state". -/
theorem c5_counterexample :
    runPipeline [⟨0, 5, "A"⟩] 0 exCudaPrimary exFailFallback exFailFallback =
      .error ⟨"out of memory", ""⟩ := by
  with_unfolding_all decide


/- ## Segment assembler: interjection preservation -/

/-- C6: for an attributed word stream `A, A, B, A` (`a ≠ b`) in which each
grouped text survives the hallucination filter, the assembler emits exactly
three segments — the A-run, the one-word B-interjection, and the trailing
A-word — with display names `Speaker 1`, `Speaker 2`, `Speaker 1`; adjacency
smoothing does not merge the two A-segments across the interjection. -/
theorem c6_interjection_preserved (w1 w2 w3 w4 : SpeakerWord) (a b : String)
    (h1 : w1.speaker_raw = a) (h2 : w2.speaker_raw = a) (h3 : w3.speaker_raw = b)
    (h4 : w4.speaker_raw = a) (hab : a ≠ b)
    (ht1 : clean_hallucinations (String.intercalate " " [w1.word, w2.word]) ≠ "")
    (ht2 : clean_hallucinations (String.intercalate " " [w3.word]) ≠ "")
    (ht3 : clean_hallucinations (String.intercalate " " [w4.word]) ≠ "") :
    assemble [w1, w2, w3, w4] =
      [⟨w1.start, format_timestamp w1.start,
        clean_hallucinations (String.intercalate " " [w1.word, w2.word]), "Speaker 1"⟩,
       ⟨w3.start, format_timestamp w3.start,
        clean_hallucinations (String.intercalate " " [w3.word]), "Speaker 2"⟩,
       ⟨w4.start, format_timestamp w4.start,
        clean_hallucinations (String.intercalate " " [w4.word]), "Speaker 1"⟩] ∧
    (assemble [w1, w2, w3, w4]).length = 3 := by
  have e1 : (w2.speaker_raw == w1.speaker_raw) = true := by
    rw [h1, h2]; exact beq_self_eq_true a
  have e2 : (w3.speaker_raw == w1.speaker_raw) = false := by
    rw [h1, h3]; exact beq_eq_false_iff_ne.mpr (Ne.symm hab)
  have e3 : (w4.speaker_raw == w3.speaker_raw) = false := by
    rw [h3, h4]; exact beq_eq_false_iff_ne.mpr hab
  have e4 : (w4.speaker_raw == w1.speaker_raw) = true := by
    rw [h1, h4]; exact beq_self_eq_true a
  have hn1 : "Speaker " ++ toString (0 + 1) = "Speaker 1" := rfl
  have hn2 : "Speaker " ++ toString (1 + 1) = "Speaker 2" := rfl
  have flush1 : flushSeg [] 0 w1.speaker_raw w1.start [w1.word, w2.word] [] =
      ([⟨w1.start, format_timestamp w1.start,
        clean_hallucinations (String.intercalate " " [w1.word, w2.word]), "Speaker 1"⟩],
       [(w1.speaker_raw, "Speaker 1")], 1) := by
    simp only [flushSeg, List.lookup, beq_self_eq_true, if_neg ht1, hn1,
      List.nil_append, Option.getD_some]
  have flush2 : flushSeg [(w1.speaker_raw, "Speaker 1")] 1 w3.speaker_raw w3.start
      [w3.word]
      [⟨w1.start, format_timestamp w1.start,
        clean_hallucinations (String.intercalate " " [w1.word, w2.word]), "Speaker 1"⟩] =
      ([⟨w1.start, format_timestamp w1.start,
         clean_hallucinations (String.intercalate " " [w1.word, w2.word]), "Speaker 1"⟩,
        ⟨w3.start, format_timestamp w3.start,
         clean_hallucinations (String.intercalate " " [w3.word]), "Speaker 2"⟩],
       [(w1.speaker_raw, "Speaker 1"), (w3.speaker_raw, "Speaker 2")], 2) := by
    simp only [flushSeg, List.lookup, e2, beq_self_eq_true, if_neg ht2, hn2,
      List.singleton_append, List.cons_append, List.nil_append, Option.getD_some]
  have flush3 : flushSeg [(w1.speaker_raw, "Speaker 1"), (w3.speaker_raw, "Speaker 2")] 2
      w4.speaker_raw w4.start [w4.word]
      [⟨w1.start, format_timestamp w1.start,
        clean_hallucinations (String.intercalate " " [w1.word, w2.word]), "Speaker 1"⟩,
       ⟨w3.start, format_timestamp w3.start,
        clean_hallucinations (String.intercalate " " [w3.word]), "Speaker 2"⟩] =
      ([⟨w1.start, format_timestamp w1.start,
         clean_hallucinations (String.intercalate " " [w1.word, w2.word]), "Speaker 1"⟩,
        ⟨w3.start, format_timestamp w3.start,
         clean_hallucinations (String.intercalate " " [w3.word]), "Speaker 2"⟩,
        ⟨w4.start, format_timestamp w4.start,
         clean_hallucinations (String.intercalate " " [w4.word]), "Speaker 1"⟩],
       [(w1.speaker_raw, "Speaker 1"), (w3.speaker_raw, "Speaker 2")], 2) := by
    simp only [flushSeg, List.lookup, e4, if_neg ht3,
      List.cons_append, List.nil_append, Option.getD_some]
  have hmain : assemble [w1, w2, w3, w4] =
      [⟨w1.start, format_timestamp w1.start,
        clean_hallucinations (String.intercalate " " [w1.word, w2.word]), "Speaker 1"⟩,
       ⟨w3.start, format_timestamp w3.start,
        clean_hallucinations (String.intercalate " " [w3.word]), "Speaker 2"⟩,
       ⟨w4.start, format_timestamp w4.start,
        clean_hallucinations (String.intercalate " " [w4.word]), "Speaker 1"⟩] := by
    show smooth (groupLoop w1.speaker_raw w1.start [w1.word] [] 0 [] [w2, w3, w4]) = _
    conv_lhs => rw [groupLoop]
    rw [if_pos e1]
    conv_lhs => rw [groupLoop]
    rw [if_neg (by rw [e2]; exact Bool.false_ne_true)]
    simp only [List.cons_append, List.nil_append, flush1]
    conv_lhs => rw [groupLoop]
    rw [if_neg (by rw [e3]; exact Bool.false_ne_true)]
    simp only [flush2]
    conv_lhs => rw [groupLoop]
    simp only [flush3]
    show smooth [_, _, _] = _
    rw [smooth]
    conv_lhs => rw [smoothAux]
    rw [if_neg (by show (("Speaker 2" == "Speaker 1") = true) → False; decide)]
    conv_lhs => rw [smoothAux]
    rw [if_neg (by show (("Speaker 1" == "Speaker 2") = true) → False; decide)]
    rw [smoothAux]
  exact ⟨hmain, by rw [hmain]; rfl⟩

/-- C6 witness: the concrete stream раз/два (speaker `a`), угу (`b`),
три (`a`). -/
theorem c6_witness :
    ("a" ≠ "b" ∧
      clean_hallucinations (String.intercalate " " ["раз", "два"]) ≠ "" ∧
      clean_hallucinations (String.intercalate " " ["угу"]) ≠ "" ∧
      clean_hallucinations (String.intercalate " " ["три"]) ≠ "") ∧
    assemble [⟨"раз", 0, 1, "a"⟩, ⟨"два", 1, 2, "a"⟩,
              ⟨"угу", 2, 3, "b"⟩, ⟨"три", 3, 4, "a"⟩] =
      [⟨0, format_timestamp 0,
        clean_hallucinations (String.intercalate " " ["раз", "два"]), "Speaker 1"⟩,
       ⟨2, format_timestamp 2,
        clean_hallucinations (String.intercalate " " ["угу"]), "Speaker 2"⟩,
       ⟨3, format_timestamp 3,
        clean_hallucinations (String.intercalate " " ["три"]), "Speaker 1"⟩] ∧
    (assemble [⟨"раз", 0, 1, "a"⟩, ⟨"два", 1, 2, "a"⟩,
               ⟨"угу", 2, 3, "b"⟩, ⟨"три", 3, 4, "a"⟩]).length = 3 := by
  have h := c6_interjection_preserved ⟨"раз", 0, 1, "a"⟩ ⟨"два", 1, 2, "a"⟩
    ⟨"угу", 2, 3, "b"⟩ ⟨"три", 3, 4, "a"⟩ "a" "b" rfl rfl rfl rfl
    (by decide) (by decide) (by decide) (by decide)
  exact ⟨⟨by decide, by decide, by decide, by decide⟩, h.1, h.2⟩

/- ## Segment assembler invariants -/

/-- Appending to a non-empty string yields a non-empty string. -/
theorem string_append_ne_empty (s t : String) (h : s ≠ "") : s ++ t ≠ "" := by
  intro he
  apply h
  have hd : (s ++ t).data = [] := by rw [he]
  rw [String.data_append] at hd
  obtain ⟨h1, _⟩ := List.append_eq_nil.mp hd
  cases s
  simp_all

/-- Every segment the smoothing pass emits carries the start time of one of
its input segments. -/
theorem smoothAux_start_mem :
    ∀ (l : List Segment) (cur : Segment), ∀ x ∈ smoothAux cur l,
      ∃ y ∈ cur :: l, x.start = y.start := by
  intro l
  induction l with
  | nil =>
      intro cur x hx
      simp only [smoothAux, List.mem_singleton] at hx
      exact ⟨cur, by simp, by rw [hx]⟩
  | cons s rest ih =>
      intro cur x hx
      simp only [smoothAux] at hx
      split at hx
      · obtain ⟨y, hy, hxy⟩ := ih _ x hx
        rcases List.mem_cons.mp hy with rfl | hy2
        · exact ⟨cur, by simp, hxy⟩
        · exact ⟨y, List.mem_cons_of_mem _ (List.mem_cons_of_mem _ hy2), hxy⟩
      · rcases List.mem_cons.mp hx with hx1 | hx2
        · exact ⟨cur, by simp, by rw [hx1]⟩
        · obtain ⟨y, hy, hxy⟩ := ih s x hx2
          exact ⟨y, List.mem_cons_of_mem _ hy, hxy⟩

/-- Smoothing preserves non-decreasing start order. -/
theorem smoothAux_sorted :
    ∀ (l : List Segment) (cur : Segment),
    List.Pairwise (fun s t : Segment => s.start ≤ t.start) (cur :: l) →
    List.Pairwise (fun s t : Segment => s.start ≤ t.start) (smoothAux cur l) := by
  intro l
  induction l with
  | nil => intro cur _; simp [smoothAux]
  | cons s rest ih =>
      intro cur hp
      obtain ⟨h1, hp2⟩ := List.pairwise_cons.mp hp
      simp only [smoothAux]
      split
      · refine ih _ (List.pairwise_cons.mpr ⟨?_, (List.pairwise_cons.mp hp2).2⟩)
        intro y hy
        exact h1 y (List.mem_cons_of_mem _ hy)
      · refine List.pairwise_cons.mpr ⟨?_, ih s hp2⟩
        intro y hy
        obtain ⟨z, hz, hyz⟩ := smoothAux_start_mem rest s y hy
        rw [hyz]
        exact h1 z hz

/-- Smoothing preserves non-emptiness of segment texts (merged texts contain
their non-empty left part). -/
theorem smoothAux_texts :
    ∀ (l : List Segment) (cur : Segment), cur.text ≠ "" → (∀ s ∈ l, s.text ≠ "") →
    ∀ s ∈ smoothAux cur l, s.text ≠ "" := by
  intro l
  induction l with
  | nil =>
      intro cur hcur _ s hs
      simp only [smoothAux, List.mem_singleton] at hs
      rw [hs]; exact hcur
  | cons x rest ih =>
      intro cur hcur hl s hs
      simp only [smoothAux] at hs
      split at hs
      · exact ih _ (string_append_ne_empty _ _ (string_append_ne_empty _ _ hcur))
          (fun t ht => hl t (List.mem_cons_of_mem _ ht)) s hs
      · rcases List.mem_cons.mp hs with rfl | hs2
        · exact hcur
        · exact ih x (hl x (by simp)) (fun t ht => hl t (List.mem_cons_of_mem _ ht)) s hs2

/-- A flush either drops the run (empty filtered text) or appends one
segment starting at the run start whose filtered text is non-empty. -/
theorem flushSeg_acc (map : List (String × String)) (counter : Nat) (raw : String)
    (start : ℚ) (wordsAcc : List String) (acc : List Segment) :
    (flushSeg map counter raw start wordsAcc acc).1 = acc ∨
    ∃ name, (flushSeg map counter raw start wordsAcc acc).1 =
        acc ++ [⟨start, format_timestamp start,
          clean_hallucinations (String.intercalate " " wordsAcc), name⟩] ∧
      clean_hallucinations (String.intercalate " " wordsAcc) ≠ "" := by
  simp only [flushSeg]
  split
  · next h =>
      split
      · exact Or.inl rfl
      · exact Or.inl rfl
  · next h =>
      split
      · exact Or.inr ⟨_, rfl, h⟩
      · exact Or.inr ⟨_, rfl, h⟩

/-- Grouping-loop invariant: from a sorted accumulated prefix below the
current run start and a sorted upcoming stream, the loop produces segments in
non-decreasing start order, none with empty text. -/
theorem groupLoop_inv :
    ∀ (rest : List SpeakerWord) (curRaw : String) (curStart : ℚ)
      (curWords : List String) (map : List (String × String)) (counter : Nat)
      (acc : List Segment),
    List.Pairwise (fun s t : Segment => s.start ≤ t.start) acc →
    (∀ s ∈ acc, s.start ≤ curStart) →
    (∀ sw ∈ rest, curStart ≤ sw.start) →
    List.Pairwise (fun x y : SpeakerWord => x.start ≤ y.start) rest →
    (∀ s ∈ acc, s.text ≠ "") →
    List.Pairwise (fun s t : Segment => s.start ≤ t.start)
      (groupLoop curRaw curStart curWords map counter acc rest) ∧
    ∀ s ∈ groupLoop curRaw curStart curWords map counter acc rest, s.text ≠ "" := by
  intro rest
  induction rest with
  | nil =>
      intro curRaw curStart curWords map counter acc hacc hle _ _ htext
      simp only [groupLoop]
      rcases flushSeg_acc map counter curRaw curStart curWords acc with h | ⟨name, h, hne⟩
      · rw [h]; exact ⟨hacc, htext⟩
      · rw [h]
        constructor
        · rw [List.pairwise_append]
          refine ⟨hacc, by simp, ?_⟩
          intro a ha b hb
          simp only [List.mem_singleton] at hb
          rw [hb]
          exact hle a ha
        · intro s hs
          rcases List.mem_append.mp hs with hs1 | hs2
          · exact htext s hs1
          · simp only [List.mem_singleton] at hs2
            rw [hs2]
            exact hne
  | cons sw rest2 ih =>
      intro curRaw curStart curWords map counter acc hacc hle hup hsorted htext
      simp only [groupLoop]
      split
      · exact ih curRaw curStart (curWords ++ [sw.word]) map counter acc hacc hle
          (fun x hx => hup x (List.mem_cons_of_mem _ hx))
          ((List.pairwise_cons.mp hsorted).2) htext
      · have hsw : curStart ≤ sw.start := hup sw (by simp)
        rcases flushSeg_acc map counter curRaw curStart curWords acc with h | ⟨name, h, hne⟩
        · rw [h]
          exact ih sw.speaker_raw sw.start [sw.word] _ _ acc hacc
            (fun s hs => le_trans (hle s hs) hsw)
            (fun x hx => (List.pairwise_cons.mp hsorted).1 x hx)
            ((List.pairwise_cons.mp hsorted).2) htext
        · rw [h]
          refine ih sw.speaker_raw sw.start [sw.word] _ _ _ ?_ ?_ ?_ ?_ ?_
          · rw [List.pairwise_append]
            refine ⟨hacc, by simp, ?_⟩
            intro a ha b hb
            simp only [List.mem_singleton] at hb
            rw [hb]
            exact hle a ha
          · intro s hs
            rcases List.mem_append.mp hs with hs1 | hs2
            · exact le_trans (hle s hs1) hsw
            · simp only [List.mem_singleton] at hs2
              rw [hs2]
              exact hsw
          · exact fun x hx => (List.pairwise_cons.mp hsorted).1 x hx
          · exact (List.pairwise_cons.mp hsorted).2
          · intro s hs
            rcases List.mem_append.mp hs with hs1 | hs2
            · exact htext s hs1
            · simp only [List.mem_singleton] at hs2
              rw [hs2]
              exact hne

/-- C8: for every attributed word stream presented in non-decreasing start
order (the assembler's input contract), the final segment list is in
non-decreasing start order and no emitted segment has empty text after
hallucination filtering. -/
theorem c8_assembler_invariants (ws : List SpeakerWord)
    (hsorted : List.Pairwise (fun x y : SpeakerWord => x.start ≤ y.start) ws) :
    List.Pairwise (fun s t : Segment => s.start ≤ t.start) (assemble ws) ∧
    ∀ s ∈ assemble ws, s.text ≠ "" := by
  cases ws with
  | nil => exact ⟨List.Pairwise.nil, by intro s hs; cases hs⟩
  | cons w rest =>
      have h := groupLoop_inv rest w.speaker_raw w.start [w.word] [] 0 []
        List.Pairwise.nil (by intro s hs; cases hs)
        ((List.pairwise_cons.mp hsorted).1)
        ((List.pairwise_cons.mp hsorted).2)
        (by intro s hs; cases hs)
      show List.Pairwise _ (smooth (groupLoop _ _ _ _ _ _ rest)) ∧
        ∀ s ∈ smooth (groupLoop _ _ _ _ _ _ rest), s.text ≠ ""
      cases hsegs : groupLoop w.speaker_raw w.start [w.word] [] 0 [] rest with
      | nil => exact ⟨List.Pairwise.nil, by intro s hs; cases hs⟩
      | cons s0 stail =>
          rw [hsegs] at h
          rw [smooth]
          exact ⟨smoothAux_sorted stail s0 h.1,
            smoothAux_texts stail s0 (h.2 s0 (by simp))
              (fun t ht => h.2 t (List.mem_cons_of_mem _ ht))⟩

/-- C8 witness on a concrete two-word sorted stream. -/
theorem c8_witness :
    List.Pairwise (fun x y : SpeakerWord => x.start ≤ y.start)
      [⟨"раз", 0, 1, "a"⟩, ⟨"угу", 2, 3, "b"⟩] ∧
    List.Pairwise (fun s t : Segment => s.start ≤ t.start)
      (assemble [⟨"раз", 0, 1, "a"⟩, ⟨"угу", 2, 3, "b"⟩]) ∧
    ∀ s ∈ assemble [⟨"раз", 0, 1, "a"⟩, ⟨"угу", 2, 3, "b"⟩], s.text ≠ "" := by
  have h := c8_assembler_invariants [⟨"раз", 0, 1, "a"⟩, ⟨"угу", 2, 3, "b"⟩]
    (by with_unfolding_all decide)
  exact ⟨by with_unfolding_all decide, h.1, h.2⟩

/- ## Hallucination filter: conditional idempotence -/

/-- If a pattern matches nowhere in the input, the substitution driver
returns the input unchanged (any fuel). -/
theorem hasMatch_false_sub
    (m : Option Char → List Char → Option (Option Char × List Char)) :
    ∀ (l : List Char) (prev : Option Char) (fuel : Nat),
    hasMatch m prev l = false → subAllF m fuel prev l = l := by
  intro l
  induction l with
  | nil => intro prev fuel _; cases fuel <;> rfl
  | cons c cs ih =>
      intro prev fuel h
      rw [hasMatch, Bool.or_eq_false_iff] at h
      have hnone : m prev (c :: cs) = none :=
        Option.not_isSome_iff_eq_none.mp (by rw [h.1]; exact Bool.false_ne_true)
      cases fuel with
      | zero => rfl
      | succ f =>
          rw [subAllF, hnone, ih (some c) f h.2]

/-- A pattern with no occurrence deletes nothing. -/
theorem runSub_id (rx : Rx) (l : List Char)
    (h : hasMatch (topMatch rx) none l = false) : runSub rx l = l :=
  hasMatch_false_sub (topMatch rx) l none l.length h

/-- If none of the patterns occurs in the input, the whole substitution
fold is the identity. -/
theorem foldSubs_id :
    ∀ (rxs : List Rx) (l : List Char),
    (∀ rx ∈ rxs, hasMatch (topMatch rx) none l = false) →
    rxs.foldl (fun acc rx => runSub rx acc) l = l := by
  intro rxs
  induction rxs with
  | nil => intro l _; rfl
  | cons r rs ih =>
      intro l h
      rw [List.foldl_cons, runSub_id r l (h r (by simp))]
      exact ih l (fun rx hrx => h rx (List.mem_cons_of_mem _ hrx))

/-- Leading-whitespace removal only returns input characters. -/
theorem dropSp_mem : ∀ (l : List Char), ∀ x ∈ dropSp l, x ∈ l := by
  intro l
  induction l with
  | nil => intro x hx; cases hx
  | cons c cs ih =>
      intro x hx
      rw [dropSp] at hx
      split at hx
      · exact List.mem_cons_of_mem _ (ih x hx)
      · exact hx

/-- Leading-whitespace removal preserves every adjacency chain (its output
is a suffix). -/
theorem dropSp_chain {R : Char → Char → Prop} :
    ∀ (l : List Char), List.Chain' R l → List.Chain' R (dropSp l) := by
  intro l
  induction l with
  | nil => intro _; exact List.chain'_nil
  | cons c cs ih =>
      intro h
      rw [dropSp]
      split
      · exact ih (List.Chain'.tail h)
      · exact h

/-- The head surviving leading-whitespace removal is not whitespace. -/
theorem dropSp_head_not :
    ∀ (l : List Char) (c : Char) (cs : List Char),
    dropSp l = c :: cs → isSp c = false := by
  intro l
  induction l with
  | nil => intro c cs h; cases h
  | cons d ds ih =>
      intro c cs h
      rw [dropSp] at h
      split at h
      · exact ih c cs h
      · next hd =>
          obtain ⟨rfl, _⟩ : d = c ∧ ds = cs :=
            ⟨(List.cons.injEq _ _ _ _ ▸ h).1, (List.cons.injEq _ _ _ _ ▸ h).2⟩
          exact Bool.not_eq_true _ ▸ (by simpa using hd)

/-- Removal is the identity when the head is not whitespace. -/
theorem dropSp_cons_not_sp (c : Char) (cs : List Char) (h : isSp c = false) :
    dropSp (c :: cs) = c :: cs := by
  rw [dropSp, h]
  simp

/-- Leading-whitespace removal does not change the last element. -/
theorem dropSp_getLast? :
    ∀ (l : List Char), dropSp l ≠ [] → (dropSp l).getLast? = l.getLast? := by
  intro l
  induction l with
  | nil => intro h; exact absurd rfl h
  | cons c cs ih =>
      intro h
      by_cases hc : isSp c = true
      · have hdrop : dropSp (c :: cs) = dropSp cs := by rw [dropSp, hc]; simp
        rw [hdrop] at h ⊢
        have hcs : cs ≠ [] := by
          intro he; rw [he] at h; exact h rfl
        obtain ⟨d, ds, rfl⟩ : ∃ d ds, cs = d :: ds := by
          cases cs with
          | nil => exact absurd rfl hcs
          | cons d ds => exact ⟨d, ds, rfl⟩
        rw [ih h, List.getLast?_cons_cons]
      · rw [dropSp_cons_not_sp c cs (Bool.not_eq_true _ ▸ hc)]

/-- Removal never lengthens the list. -/
theorem dropSp_length_le (l : List Char) : (dropSp l).length ≤ l.length := by
  induction l with
  | nil => simp [dropSp]
  | cons c cs ih =>
      rw [dropSp]
      split
      · exact Nat.le_succ_of_le ih
      · exact le_rfl

/-- Collapsing the empty list gives the empty list at any fuel. -/
theorem collapseWsF_nil (f : Nat) : collapseWsF f [] = [] := by
  cases f <;> rfl

/-- A non-whitespace head survives collapsing unchanged. -/
theorem collapseWsF_cons_not_sp (f : Nat) (c : Char) (cs : List Char)
    (h : isSp c = false) : ∃ tl, collapseWsF f (c :: cs) = c :: tl := by
  cases f with
  | zero => exact ⟨cs, rfl⟩
  | succ f2 =>
      rw [collapseWsF, h]
      exact ⟨collapseWsF f2 cs, by simp⟩

/-- The collapsed form of a list with non-whitespace head keeps that head. -/
theorem collapseWsF_head_of_not_sp (f : Nat) (e : Char) (es : List Char)
    (h : isSp e = false) : (collapseWsF f (e :: es)).head? = some e := by
  obtain ⟨tl, htl⟩ := collapseWsF_cons_not_sp f e es h
  rw [htl]
  rfl

/-- Whitespace collapsing establishes the collapsed shape: only plain
spaces, never two adjacent. -/
theorem collapseWsF_good :
    ∀ (f : Nat) (l : List Char), l.length ≤ f → GoodWs (collapseWsF f l) := by
  intro f
  induction f with
  | zero =>
      intro l hl
      obtain rfl : l = [] := List.length_eq_zero.mp (Nat.le_zero.mp hl)
      exact ⟨(by intro c hc; cases hc), List.chain'_nil⟩
  | succ f2 ih =>
      intro l hl
      cases l with
      | nil => exact ⟨(by intro c hc; cases hc), List.chain'_nil⟩
      | cons c cs =>
          have hcs : cs.length ≤ f2 := Nat.le_of_succ_le_succ hl
          by_cases hc : isSp c = true
          · rw [collapseWsF, hc]
            simp only [if_true]
            have hdl : (dropSp cs).length ≤ f2 :=
              le_trans (dropSp_length_le cs) hcs
            obtain ⟨hmem, hchain⟩ := ih (dropSp cs) hdl
            refine ⟨?_, ?_⟩
            · intro x hx hsp
              rcases List.mem_cons.mp hx with rfl | hx2
              · rfl
              · exact hmem x hx2 hsp
            · refine List.chain'_cons'.mpr ⟨?_, hchain⟩
              intro b hb
              have hbns : isSp b = false := by
                cases hdrop : dropSp cs with
                | nil =>
                    rw [hdrop, collapseWsF_nil] at hb
                    cases hb
                | cons e es =>
                    have he : isSp e = false := dropSp_head_not cs e es hdrop
                    rw [hdrop, collapseWsF_head_of_not_sp f2 e es he] at hb
                    obtain rfl : e = b := by simpa using hb
                    exact he
              intro hand
              rw [hbns] at hand
              exact Bool.false_ne_true hand.2
          · have hc2 : isSp c = false := Bool.not_eq_true _ ▸ hc
            rw [collapseWsF, hc2]
            simp only [Bool.false_eq_true, if_false]
            obtain ⟨hmem, hchain⟩ := ih cs hcs
            refine ⟨?_, ?_⟩
            · intro x hx hsp
              rcases List.mem_cons.mp hx with rfl | hx2
              · rw [hsp] at hc2; cases hc2
              · exact hmem x hx2 hsp
            · refine List.chain'_cons'.mpr ⟨?_, hchain⟩
              intro b _ hand
              rw [hc2] at hand
              exact Bool.false_ne_true hand.1

/-- Collapsing is the identity on already-collapsed input. -/
theorem collapse_id_of_good :
    ∀ (f : Nat) (l : List Char), l.length ≤ f → GoodWs l → collapseWsF f l = l := by
  intro f
  induction f with
  | zero =>
      intro l hl _
      obtain rfl : l = [] := List.length_eq_zero.mp (Nat.le_zero.mp hl)
      rfl
  | succ f2 ih =>
      intro l hl hg
      cases l with
      | nil => rfl
      | cons c cs =>
          obtain ⟨hmem, hchain⟩ := hg
          have hcs : cs.length ≤ f2 := Nat.le_of_succ_le_succ hl
          have hgcs : GoodWs cs :=
            ⟨fun x hx => hmem x (List.mem_cons_of_mem _ hx), List.Chain'.tail hchain⟩
          by_cases hc : isSp c = true
          · have hcsp : c = ' ' := hmem c (by simp) hc
            have hdrop : dropSp cs = cs := by
              cases cs with
              | nil => rfl
              | cons e es =>
                  have hrel := List.chain'_cons.mp hchain
                  have he : isSp e = false := by
                    by_cases hesp : isSp e = true
                    · exact absurd ⟨hc, hesp⟩ hrel.1
                    · exact Bool.not_eq_true _ ▸ hesp
                  exact dropSp_cons_not_sp e es he
            rw [collapseWsF, hc]
            simp only [if_true, hdrop, ih cs hcs hgcs, hcsp]
          · have hc2 : isSp c = false := Bool.not_eq_true _ ▸ hc
            rw [collapseWsF, hc2]
            simp only [Bool.false_eq_true, if_false, ih cs hcs hgcs]

/-- The collapsed shape survives leading-whitespace removal. -/
theorem good_dropSp (l : List Char) (h : GoodWs l) : GoodWs (dropSp l) :=
  ⟨fun x hx => h.1 x (dropSp_mem l x hx), dropSp_chain l h.2⟩

/-- The collapsed shape survives reversal. -/
theorem good_reverse (l : List Char) (h : GoodWs l) : GoodWs l.reverse := by
  refine ⟨fun x hx => h.1 x (List.mem_reverse.mp hx), ?_⟩
  rw [List.chain'_reverse]
  exact h.2.imp (fun a b hr => fun ⟨h1, h2⟩ => hr ⟨h2, h1⟩)

/-- The collapsed shape survives stripping. -/
theorem good_pstripL (l : List Char) (h : GoodWs l) : GoodWs (pstripL l) :=
  good_reverse _ (good_dropSp _ (good_reverse _ (good_dropSp _ h)))

/-- A stripped list never starts with whitespace. -/
theorem pstripL_head_not (l : List Char) (c : Char) (cs : List Char)
    (h : pstripL l = c :: cs) : isSp c = false := by
  rw [pstripL] at h
  have h2 : (dropSp (List.reverse (dropSp l))).getLast? = some c := by
    rw [← List.head?_reverse, h]
    rfl
  have hne : dropSp (List.reverse (dropSp l)) ≠ [] := by
    intro he
    rw [he] at h2
    cases h2
  rw [dropSp_getLast? _ hne, List.getLast?_reverse] at h2
  obtain ⟨ds, hds⟩ : ∃ ds, dropSp l = c :: ds := by
    cases hd : dropSp l with
    | nil => rw [hd] at h2; cases h2
    | cons e es =>
        rw [hd] at h2
        obtain rfl : e = c := by simpa using h2
        exact ⟨es, rfl⟩
  exact dropSp_head_not l c ds hds

/-- A stripped list never ends with whitespace. -/
theorem pstripL_getLast_not (l : List Char) (c : Char)
    (h : (pstripL l).getLast? = some c) : isSp c = false := by
  rw [pstripL, List.getLast?_reverse] at h
  obtain ⟨ds, hds⟩ : ∃ ds, dropSp (List.reverse (dropSp l)) = c :: ds := by
    cases hd : dropSp (List.reverse (dropSp l)) with
    | nil => rw [hd] at h; cases h
    | cons e es =>
        rw [hd] at h
        obtain rfl : e = c := by simpa using h
        exact ⟨es, rfl⟩
  exact dropSp_head_not _ c ds hds

/-- Stripping is the identity when neither end is whitespace. -/
theorem pstripL_id_of (l : List Char)
    (hhead : ∀ c, l.head? = some c → isSp c = false)
    (hlast : ∀ c, l.getLast? = some c → isSp c = false) :
    pstripL l = l := by
  cases l with
  | nil => rfl
  | cons c cs =>
      have hc : isSp c = false := hhead c rfl
      rw [pstripL, dropSp_cons_not_sp c cs hc]
      have hrev : dropSp (List.reverse (c :: cs)) = List.reverse (c :: cs) := by
        cases hr : List.reverse (c :: cs) with
        | nil => rfl
        | cons d ds =>
            have hd : (c :: cs).getLast? = some d := by
              rw [← List.head?_reverse, hr]; rfl
            exact dropSp_cons_not_sp d ds (hlast d hd)
      rw [hrev, List.reverse_reverse]

/-- Stripping is idempotent. -/
theorem pstripL_idem (l : List Char) : pstripL (pstripL l) = pstripL l := by
  refine pstripL_id_of (pstripL l) ?_ ?_
  · intro c hc
    obtain ⟨cs, hcs⟩ : ∃ cs, pstripL l = c :: cs := by
      cases hp : pstripL l with
      | nil => rw [hp] at hc; cases hc
      | cons e es =>
          rw [hp] at hc
          obtain rfl : e = c := by simpa using hc
          exact ⟨es, rfl⟩
    exact pstripL_head_not l c cs hcs
  · intro c hc
    exact pstripL_getLast_not l c hc

/-- Collapse-then-strip is idempotent. -/
theorem ct_idem (l : List Char) :
    pstripL (collapseWs (pstripL (collapseWs l))) = pstripL (collapseWs l) := by
  have hg : GoodWs (pstripL (collapseWs l)) :=
    good_pstripL _ (collapseWsF_good l.length l le_rfl)
  have h1 : collapseWs (pstripL (collapseWs l)) = pstripL (collapseWs l) :=
    collapse_id_of_good _ _ le_rfl hg
  rw [h1, pstripL_idem]

/-- The characters of a packed string. -/
theorem data_mk (l : List Char) : (String.mk l).data = l := rfl

/-- With no pattern occurrence the filter only collapses whitespace and
strips. -/
theorem cleanData_of_noMatch (x : List Char)
    (h : ∀ rx ∈ hallucinationRxs, hasMatch (topMatch rx) none x = false) :
    cleanData x = pstripL (collapseWs x) := by
  rw [cleanData, foldSubs_id hallucinationRxs x h]

/-- The filter is idempotent whenever its output contains no pattern
occurrence. -/
theorem cleanData_idem (x : List Char)
    (h : ∀ rx ∈ hallucinationRxs, hasMatch (topMatch rx) none (cleanData x) = false) :
    cleanData (cleanData x) = cleanData x := by
  rw [cleanData_of_noMatch (cleanData x) h, cleanData]
  exact ct_idem _

/-- C7 (amended): the hallucination filter is idempotent on every input whose
cleaned form contains no artifact-pattern occurrence, and an input in which no
pattern matches is returned unchanged up to whitespace collapsing and
trimming. (Unconditional idempotence fails: deleting one artifact can splice
the surrounding text into a new artifact that only a second pass removes.) -/
theorem c7_filter_conditional_idempotent (t : String) :
    ((∀ rx ∈ hallucinationRxs, hasMatch (topMatch rx) none t.data = false) →
      clean_hallucinations t = String.mk (pstripL (collapseWs t.data))) ∧
    ((∀ rx ∈ hallucinationRxs,
        hasMatch (topMatch rx) none (clean_hallucinations t).data = false) →
      clean_hallucinations (clean_hallucinations t) = clean_hallucinations t) := by
  constructor
  · intro h
    rw [clean_hallucinations, cleanData_of_noMatch t.data h]
  · intro h
    rw [clean_hallucinations, data_mk] at h
    rw [clean_hallucinations, clean_hallucinations, data_mk, cleanData_idem t.data h]

/-- C7 witness: a legitimate-speech input is a fixed point of the filter. -/
theorem c7_witness :
    clean_hallucinations (clean_hallucinations "Привет") =
      clean_hallucinations "Привет" := by
  have hc : clean_hallucinations "Привет" = "Привет" := by decide
  refine (c7_filter_conditional_idempotent "Привет").2 ?_
  rw [hc]
  intro rx hrx
  simp only [hallucinationRxs, List.mem_cons, List.not_mem_nil, or_false] at hrx
  rcases hrx with rfl | rfl | rfl | rfl | rfl | rfl | rfl | rfl <;> rfl

/-- C7 counterexample: deleting the blocklist phrase `Все права защищены`
from between `Редактор` and `субтитров А. Иванов` splices together the
`Редактор субтитров` + name artifact, which only the second pass removes —
so `clean (clean t) = \"\" ≠ clean t` and unconditional idempotence fails. -/
theorem c7_counterexample :
    clean_hallucinations
        (clean_hallucinations "Редактор Все права защищены субтитров А. Иванов") ≠
      clean_hallucinations "Редактор Все права защищены субтитров А. Иванов" ∧
    clean_hallucinations "Редактор Все права защищены субтитров А. Иванов" =
      "Редактор субтитров А. Иванов" ∧
    clean_hallucinations "Редактор субтитров А. Иванов" = "" := by
  refine ⟨?_, by decide, by decide⟩
  decide
